import Mathlib

/-!
Verification of the localscribe recording pipeline and query tool against its
natural-language specification.  The Go sources are shallowly embedded: pure
functions become Lean functions, stateful components become explicit state
passing, wall-clock times become explicit integer millisecond parameters, and
float RMS levels become rationals.  Claims C1 to C10 are settled by the
theorems at the end of the file.
-/

namespace Localscribe

/-! ## Character and line utilities

Go strings.TrimSpace and the line structure of the transcript file are modelled
over lists of characters.  Only the ASCII whitespace characters that can occur
in the embedded scenarios are modelled. -/

/-- ASCII whitespace, the subset of Go unicode.IsSpace relevant here. -/
def isSpaceChar (c : Char) : Bool :=
  c = ' ' || c = '\t' || c = '\n' || c = '\r' || c = Char.ofNat 12

/-- Drop trailing characters satisfying p (helper for trimming). -/
def dropTrailing (p : Char → Bool) (l : List Char) : List Char :=
  (l.reverse.dropWhile p).reverse

/-- Model of Go strings.TrimSpace. -/
def trimSpace (s : String) : String :=
  ⟨dropTrailing isSpaceChar (s.data.dropWhile isSpaceChar)⟩

/-- Split a character list into its lines; a string with no newline is one
line, and each newline terminates a line (so a trailing newline yields a final
empty line).  The result is never empty. -/
def linesOf : List Char → List (List Char)
  | [] => [[]]
  | c :: rest =>
    match linesOf rest with
    | [] => [[]]
    | l :: ls => if c = '\n' then [] :: l :: ls else (c :: l) :: ls

/-- Number of leading newline characters. -/
def nlCount (l : List Char) : ℕ := (l.takeWhile (fun c => c = '\n')).length

/-- A transcript line is clean when, after discarding leading whitespace, it
does not begin with two percent signs (the metadata marker).  Discarding
trailing whitespace as well, as trimming does, cannot change whether the first
two characters are percent signs, so this captures the trimmed condition. -/
def cleanLine (l : List Char) : Bool :=
  !(['%', '%'].isPrefixOf (l.dropWhile isSpaceChar))

/-- Invariant on the currentLine builder of the post-processor: it is empty or
begins with a non-whitespace character and does not begin with two percent
signs. -/
def curGood (cur : List Char) : Bool :=
  match cur with
  | [] => true
  | c :: _ => !(isSpaceChar c) && !(['%', '%'].isPrefixOf cur)

/-- Every line of a metadata string is empty (the tail after the final
newline) or begins with two percent signs and a space. -/
def metaLinesOK (s : String) : Bool :=
  (linesOf s.data).all (fun l => l.isEmpty || ['%', '%', ' '].isPrefixOf l)

/-! ## Post-processor (internal/processor, src/unnamed/part_007)

State and operations of PostProcessor.  Wall-clock now is passed explicitly in
milliseconds; the Go zero time.Time is modelled as none. -/

/-- Common abbreviations that end with a period but are not sentence endings
(source: variable abbreviations in the processor package). -/
def abbrevList : List String :=
  ["dr.", "mr.", "mrs.", "ms.", "prof.", "sr.", "jr.", "etc.", "vs.",
   "e.g.", "i.e.", "no.", "vol.", "rev.", "est.", "approx."]

/-- Model of Go strings.ToLower for the ASCII range. -/
def toLowerStr (s : String) : String :=
  ⟨s.data.map Char.toLower⟩

/-- Source: endsWithSentenceEnd.  True when the word ends with sentence-ending
punctuation and is not a known abbreviation. -/
def endsWithSentenceEnd (word : String) : Bool :=
  match word.data.getLast? with
  | none => false
  | some lastChar =>
    if abbrevList.contains (toLowerStr word) then false
    else lastChar = '.' || lastChar = '!' || lastChar = '?'

/-- Source: startsWithCapital.  True when the first character of the trimmed
word is an upper-case letter. -/
def startsWithCapital (word : String) : Bool :=
  match (trimSpace word).data with
  | [] => false
  | c :: _ => c.isUpper

/-- PostProcessor state.  pauseThreshold is in milliseconds; maxLineLength in
characters (bytes in Go; identical for the ASCII inputs considered). -/
structure PP where
  pauseThreshold : ℤ
  maxLineLength : ℕ
  lastWordTime : Option ℤ
  currentLine : String
  lastWord : String
  hasContent : Bool
deriving Repr, DecidableEq

/-- Source: processor.New with zeroed state. -/
def initPP (pauseThreshold : ℤ) (maxLineLength : ℕ) : PP :=
  { pauseThreshold := pauseThreshold
    maxLineLength := maxLineLength
    lastWordTime := none
    currentLine := ""
    lastWord := ""
    hasContent := false }

/-- Rule 1 of ProcessWord: long silence since the previous word. -/
def pauseBreak (p : PP) (now : ℤ) : Bool :=
  p.hasContent &&
    (match p.lastWordTime with
     | none => false
     | some t => decide (p.pauseThreshold < now - t))

/-- Rule 2 of ProcessWord: previous word ended a sentence and the new trimmed
word starts with a capital letter. -/
def sentenceBreak (p : PP) (word : String) : Bool :=
  p.hasContent && endsWithSentenceEnd p.lastWord && startsWithCapital word

/-- Value of the currentLine builder after rules 1 and 2 have run. -/
def lineAfterBreaks (p : PP) (word : String) (now : ℤ) : String :=
  let cur1 := if pauseBreak p now then "" else p.currentLine
  if sentenceBreak p word then "" else cur1

/-- Rule 3 of ProcessWord: appending the word would overflow maxLineLength. -/
def overflowBreak (p : PP) (word : String) (now : ℤ) : Bool :=
  decide (0 < (lineAfterBreaks p word now).length) &&
  decide (p.maxLineLength < (lineAfterBreaks p word now).length + 1 + word.length)

/-- Value of the currentLine builder after all three rules have run. -/
def lineFinal (p : PP) (word : String) (now : ℤ) : String :=
  if overflowBreak p word now then "" else lineAfterBreaks p word now

/-- Source: PostProcessor.ProcessWord.  Returns the emitted chunk and the new
state.  The three break rules are three successive independent if statements,
exactly as in the source; a space is inserted when the surviving currentLine
is non-empty, and the word is appended to the output and to currentLine. -/
def processWord (p : PP) (w : String) (now : ℤ) : String × PP :=
  if trimSpace w = "" then ("", p)
  else
    ((if pauseBreak p now then "\n" else "") ++
     (if sentenceBreak p (trimSpace w) then "\n" else "") ++
     (if overflowBreak p (trimSpace w) now then "\n" else "") ++
     (if 0 < (lineFinal p (trimSpace w) now).length then " " else "") ++
     trimSpace w,
     { p with
        currentLine :=
          (if 0 < (lineFinal p (trimSpace w) now).length
            then lineFinal p (trimSpace w) now ++ " "
            else lineFinal p (trimSpace w) now) ++ trimSpace w
        lastWord := trimSpace w
        lastWordTime := some now
        hasContent := true })

/-- Source: PostProcessor.ProcessEndOfTurn.  Emits a paragraph break when
content is present; resets currentLine and lastWord but not hasContent. -/
def processEndOfTurn (p : PP) : String × PP :=
  if p.hasContent then
    ("\n\n", { p with currentLine := "", lastWord := "" })
  else
    ("", p)

/-! ## Inbound Step message (internal/client/messages.go) -/

/-- Source: StepMessage.IsEndOfTurn.  Uses the third probability head with
threshold 0.5; the explicit length guards of the source become total list
accesses with defaults that the guards make irrelevant. -/
def isEndOfTurn (prs : List (List ℚ)) : Bool :=
  if prs.length < 3 then false
  else if (prs.getD 2 []).length = 0 then false
  else decide ((1 : ℚ)/2 < (prs.getD 2 []).getD 0 0)

/-! ## Diagnostic tracker (internal/diagnostics/tracker.go)

Fields needed by the dead-air claims.  Go zero time.Time values become none;
times are integer milliseconds; RMS levels are rationals. -/

/-- Constants from the source: audioBaselineAlpha = 0.2, audioActiveFactor =
1.8, audioMinActiveRMS = 0.02, audioBaselineMinValue = 0.01,
audioActiveMinStreak = 5. -/
def audioBaselineAlpha : ℚ := 1/5
def audioActiveFactor : ℚ := 9/5
def audioMinActiveRMS : ℚ := 1/50
def audioBaselineMinValue : ℚ := 1/100
def audioActiveMinStreak : ℕ := 5

/-- Tracker state (the subset of fields the dead-air logic reads or writes). -/
structure Tracker where
  connected : Bool
  lastConnectAt : Option ℤ
  lastRecvAt : Option ℤ
  lastWordAt : Option ℤ
  lastOutputAt : Option ℤ
  lastStepAt : Option ℤ
  lastAudioActiveAt : Option ℤ
  lastAudioLevel : ℚ
  audioBaseline : ℚ
  audioBaselineCount : ℕ
  audioActiveStreak : ℕ
  lastWord : String
deriving Repr, DecidableEq

/-- Source: diagnostics.New, with all timing state zeroed. -/
def initTracker : Tracker :=
  { connected := false
    lastConnectAt := none
    lastRecvAt := none
    lastWordAt := none
    lastOutputAt := none
    lastStepAt := none
    lastAudioActiveAt := none
    lastAudioLevel := 0
    audioBaseline := 0
    audioBaselineCount := 0
    audioActiveStreak := 0
    lastWord := "" }

/-- Source: Tracker.audioActiveThresholdLocked. -/
def audioActiveThreshold (t : Tracker) : ℚ :=
  if 0 < t.audioBaselineCount then
    max (t.audioBaseline * audioActiveFactor) audioMinActiveRMS
  else audioMinActiveRMS

/-- Source: Tracker.isAudioActiveLocked.  Always false until the baseline has
been initialized by a word that produced output. -/
def isAudioActive (t : Tracker) (level : ℚ) : Bool :=
  if t.audioBaselineCount = 0 then false
  else decide (audioActiveThreshold t ≤ level)

/-- Source: Tracker.updateAudioBaselineLocked.  Folds the last recorded RMS
into the exponential moving average; initializes it on the first call. -/
def updateAudioBaseline (t : Tracker) : Tracker :=
  let level := t.lastAudioLevel
  if level ≤ 0 then t
  else
    let level := if level < audioBaselineMinValue then audioBaselineMinValue else level
    if t.audioBaselineCount = 0 then
      { t with audioBaseline := level, audioBaselineCount := 1 }
    else
      { t with
          audioBaseline := (1 - audioBaselineAlpha) * t.audioBaseline + audioBaselineAlpha * level
          audioBaselineCount := t.audioBaselineCount + 1 }

/-- Source: Tracker.SetConnected. -/
def setConnected (t : Tracker) (connected : Bool) (now : ℤ) : Tracker :=
  if connected then { t with connected := connected, lastConnectAt := some now }
  else { t with connected := connected }

/-- Source: Tracker.RecordWordMessage. -/
def recordWordMessage (t : Tracker) (word : String) (outputProduced : Bool) (now : ℤ) : Tracker :=
  let t := { t with lastRecvAt := some now, lastWord := word }
  if outputProduced then
    updateAudioBaseline { t with lastWordAt := some now, lastOutputAt := some now }
  else t

/-- Source: Tracker.RecordStepMessage. -/
def recordStepMessage (t : Tracker) (endOfTurn : Bool) (now : ℤ) : Tracker :=
  let t := { t with lastRecvAt := some now, lastStepAt := some now }
  if endOfTurn then { t with lastOutputAt := some now } else t

/-- Source: Tracker.RecordAudioLevel. -/
def recordAudioLevel (t : Tracker) (level : ℚ) (now : ℤ) : Tracker :=
  let t := { t with lastAudioLevel := level }
  if isAudioActive t level then
    let s := t.audioActiveStreak + 1
    if audioActiveMinStreak ≤ s then
      { t with audioActiveStreak := s, lastAudioActiveAt := some now }
    else { t with audioActiveStreak := s }
  else { t with audioActiveStreak := 0 }

/-- Source: Tracker.ResetDeadAirTracking. -/
def resetDeadAirTracking (t : Tracker) : Tracker :=
  { t with
      lastAudioActiveAt := none
      lastAudioLevel := 0
      lastStepAt := none
      lastWordAt := none }

/-- Source: Tracker.IsDeadAir.  threshold and now are in milliseconds. -/
def isDeadAir (t : Tracker) (threshold now : ℤ) : Bool :=
  if threshold ≤ 0 then false
  else
    match t.lastStepAt with
    | none => false
    | some s =>
      if 5000 < now - s then false
      else
        match t.lastAudioActiveAt with
        | none => false
        | some a =>
          if threshold < now - a then false
          else
            match t.lastWordAt with
            | some w => if now - w ≤ threshold then false else true
            | none =>
              match t.lastConnectAt with
              | none => false
              | some c => if now - c ≤ threshold then false else true

/-- Events the recording loop feeds to the tracker, paired with their arrival
times when run. -/
inductive TrkEvent where
  | connect
  | word (w : String) (outputProduced : Bool)
  | step (endOfTurn : Bool)
  | audio (level : ℚ)
deriving Repr, DecidableEq

/-- Apply one timed event to the tracker. -/
def trkStep (t : Tracker) (e : ℤ × TrkEvent) : Tracker :=
  match e.2 with
  | .connect => setConnected t true e.1
  | .word w produced => recordWordMessage t w produced e.1
  | .step eot => recordStepMessage t eot e.1
  | .audio level => recordAudioLevel t level e.1

/-- Run a timed event trace from the fresh tracker. -/
def runTrk (evs : List (ℤ × TrkEvent)) : Tracker :=
  evs.foldl trkStep initTracker

/-- True when the event is not a word that produced output. -/
def noOutputWord (e : ℤ × TrkEvent) : Bool :=
  match e.2 with
  | .word _ produced => !produced
  | _ => true

/-- Scenario S4 of the specification: connect at time 0; audio frames with RMS
0.5 every 80 ms for 2.5 s; Step messages every 500 ms; no Word message ever. -/
def s4Trace : List (ℤ × TrkEvent) :=
  ((0, TrkEvent.connect) ::
    (List.range 32).map (fun k => ((80 * (k : ℤ) : ℤ), TrkEvent.audio (1/2)))) ++
    (List.range 5).map (fun k => ((500 * ((k : ℤ) + 1) : ℤ), TrkEvent.step false))

/-! ## Dead-air watchdog (internal/record/run.go, runTranscription)

Ticker interval selection and the per-tick body.  Durations in milliseconds;
the dead-air channel has capacity one and its occupancy is a natural number. -/

/-- Source: the interval computation guarding the watchdog goroutine.  The
interval starts at one second and is only recomputed when the threshold is
below one second. -/
def watchdogIntervalMs (thresholdMs : ℤ) : ℤ :=
  if thresholdMs < 1000 then
    (if thresholdMs / 2 < 100 then 100 else thresholdMs / 2)
  else 1000

/-- Source: the per-tick body of the watchdog goroutine.  When paused or
reconnecting the tick is skipped; otherwise the tracker is queried and, on a
dead-air verdict, a signal is enqueued unless the channel is already full. -/
def watchdogTick (paused reconnecting : Bool) (t : Tracker) (thresholdMs now : ℤ)
    (ch : ℕ) : ℕ :=
  if paused || reconnecting then ch
  else if isDeadAir t thresholdMs now then (if ch < 1 then ch + 1 else ch)
  else ch

/-- True exactly when the tick body queries the tracker. -/
def watchdogChecks (paused reconnecting : Bool) : Bool :=
  !(paused || reconnecting)

/-! ## Reconnect with exponential backoff

Source: localdsmc/internal/client/websocket.go, Client.Reconnect, for the
backoff arithmetic, attempt counting and the onAttempt-before-sleep ordering.
Modelled from the spec: the context-cancellation stop condition of
Client.ReconnectContext (internal/client/websocket.go is absent from src/;
only its caller internal/record/run.go and the localdsmc predecessor are
present).  The supervisor passes maxAttempts = 0, so the loop is unbounded and
runs until a dial succeeds or the context is cancelled; fuel bounds the
unrolling only. -/

/-- Observable events of one reconnect run.  Delays are in seconds. -/
inductive RcEvent where
  | attemptCall (n : ℕ) (delaySec : ℕ)
  | sleepFor (delaySec : ℕ)
  | dialTry (n : ℕ) (ok : Bool)
deriving Repr, DecidableEq

/-- Outcome of a reconnect run. -/
inductive RcOutcome where
  | connected (n : ℕ)
  | cancelled (n : ℕ)
deriving Repr, DecidableEq

/-- One reconnect loop: at attempt n with the current delay, stop if the
context is cancelled; otherwise call onAttempt, sleep, dial; on failure double
the delay, capping at 60 seconds, and continue. -/
def reconnectRun (cancelled dialOk : ℕ → Bool) : ℕ → ℕ → ℕ → List RcEvent × Option RcOutcome
  | 0, _, _ => ([], none)
  | fuel + 1, n, delay =>
    if cancelled n then ([], some (.cancelled n))
    else
      let evs := [RcEvent.attemptCall n delay, RcEvent.sleepFor delay,
                  RcEvent.dialTry n (dialOk n)]
      if dialOk n then (evs, some (.connected n))
      else
        let r := reconnectRun cancelled dialOk fuel (n + 1) (min (delay * 2) 60)
        (evs ++ r.1, r.2)

/-- Closed form of the backoff schedule: 1, 2, 4, ... seconds, capped at 60. -/
def delaySeq (k : ℕ) : ℕ := min (2 ^ (k - 1)) 60

/-- Every attemptCall event is immediately followed by a sleepFor event with
the same delay (onAttempt is called before each sleep). -/
def attemptThenSleep : List RcEvent → Bool
  | [] => true
  | RcEvent.attemptCall _ d :: rest =>
    (match rest with
     | RcEvent.sleepFor d2 :: _ => decide (d = d2)
     | _ => false) && attemptThenSleep rest
  | _ :: rest => attemptThenSleep rest

/-! ## Plugin runner environment (internal/plugins/runner.go)

Source: Runner.buildEnv.  The formatted wall clock is passed in as ts. -/

/-- Plugin trigger values from internal/config/config.go. -/
inductive TriggerType where
  | onStart
  | onMeetingStart
  | onMeetingEnd
  | periodic
deriving Repr, DecidableEq

/-- String values of the trigger constants (source: config.TriggerOnStart and
friends). -/
def TriggerType.goString : TriggerType → String
  | .onStart => "on_start"
  | .onMeetingStart => "on_meeting_start"
  | .onMeetingEnd => "on_meeting_end"
  | .periodic => "periodic"

/-- Meeting platforms (source: meetings.MeetingType). -/
inductive MeetingType where
  | zoom
  | meet
deriving Repr, DecidableEq

/-- Source: MeetingType.String. -/
def MeetingType.goString : MeetingType → String
  | .zoom => "zoom"
  | .meet => "meet"

/-- Source: plugins.ExecuteContext.  The duration is already converted to
whole seconds as the source does with int(d.Seconds()). -/
structure ExecuteContext where
  outputFile : String
  meetingType : MeetingType
  meetingCode : String
  meetingTitle : String
  meetingDurationSec : ℤ
deriving Repr, DecidableEq

/-- Source: Runner.buildEnv.  Returns the NAME=value strings appended to the
inherited environment of the plugin child process. -/
def buildEnv (trigger : TriggerType) (execCtx : Option ExecuteContext) (ts : String) :
    List String :=
  let env := ["LOCALDSMC_EVENT=" ++ trigger.goString, "LOCALDSMC_TIMESTAMP=" ++ ts]
  match execCtx with
  | none => env
  | some c =>
    let env := if c.outputFile ≠ "" then env ++ ["LOCALDSMC_OUTPUT_FILE=" ++ c.outputFile] else env
    if trigger = .onMeetingStart ∨ trigger = .onMeetingEnd then
      let env := env ++ ["LOCALDSMC_MEETING_TYPE=" ++ c.meetingType.goString]
      let env := if c.meetingCode ≠ "" then env ++ ["LOCALDSMC_MEETING_CODE=" ++ c.meetingCode] else env
      let env := if c.meetingTitle ≠ "" then env ++ ["LOCALDSMC_MEETING_TITLE=" ++ c.meetingTitle] else env
      if trigger = .onMeetingEnd then
        env ++ ["LOCALDSMC_MEETING_DURATION=" ++ toString c.meetingDurationSec]
      else env
    else env

/-! ## Metadata line formatting

Sources: Runner.executePlugin (plugin output lines) and runTranscription
(heartbeat and meeting marker lines). -/

/-- Source: the plugin stdout formatting in Runner.executePlugin. -/
def pluginMetadata (name line : String) : String :=
  "%% " ++ name ++ ": " ++ line ++ "\n"

/-- Source: the heartbeat line in runTranscription. -/
def heartbeatMetadata (ts : String) : String :=
  "%% time: " ++ ts ++ "\n"

/-- Source: the Zoom meeting-start line in runTranscription. -/
def zoomStartMetadata (ts : String) : String :=
  "%% meeting started: " ++ ts ++ " zoom\n"

/-- Source: the Meet meeting-start line with code and title. -/
def meetStartTitleMetadata (ts code title : String) : String :=
  "%% meeting started: " ++ ts ++ " meet/" ++ code ++ "\n%% meeting title: " ++ title ++ "\n"

/-- Source: the meeting-end line (platform is zoom or meet). -/
def meetingEndedMetadata (ts platform : String) (mins : ℕ) : String :=
  "%% meeting ended: " ++ ts ++ " " ++ platform ++ " (duration: " ++ toString mins ++ "m)\n"

/-! ## Query tool (internal/last/run.go)

Line classification, meeting interval construction and meeting printing.  The
anchored regular expressions of the source are deterministic once whitespace
runs are taken maximally (every whitespace run is followed by a character
class disjoint from whitespace), so they are embedded as straight-line
matchers.  Parsed timestamps become the integer key
((((Y*100+M)*100+D)*100+h)*100+m)*100+s, which is strictly monotone in
chronological order within one time zone; Go time.Parse gives zone
abbreviations other than the local one a zero offset, so cross-zone ordering
is not modelled and all embedded corpora use a single zone. -/

/-- ASCII digit (RE2 backslash-d). -/
def isDigitChar (c : Char) : Bool := c.isDigit

/-- Upper-case ASCII letter (the character class A to Z). -/
def isUpperAZ (c : Char) : Bool := 'A' ≤ c && c ≤ 'Z'

/-- Consume exactly n characters satisfying p. -/
def takeCount (p : Char → Bool) : ℕ → List Char → Option (List Char × List Char)
  | 0, l => some ([], l)
  | _ + 1, [] => none
  | n + 1, c :: rest =>
    if p c then (takeCount p n rest).map (fun x => (c :: x.1, x.2)) else none

/-- Consume one expected character. -/
def litChar (c : Char) : List Char → Option (List Char)
  | [] => none
  | x :: rest => if x = c then some rest else none

/-- Consume an expected literal character sequence. -/
def litList (pre l : List Char) : Option (List Char) :=
  if pre.isPrefixOf l then some (l.drop pre.length) else none

/-- Consume a maximal nonempty whitespace run (the pattern backslash-s+). -/
def takeSpaces1 (l : List Char) : Option (List Char × List Char) :=
  match l.takeWhile isSpaceChar with
  | [] => none
  | sp => some (sp, l.drop sp.length)

/-- Numeric value of a digit run. -/
def digitsVal (l : List Char) : ℕ := l.foldl (fun a c => 10 * a + (c.toNat - 48)) 0

/-- Captured components of the timestamp pattern, keeping the whitespace runs
so that the stricter Go time.Parse layout can be checked afterwards. -/
structure TsParts where
  y : ℕ
  mo : ℕ
  d : ℕ
  h : ℕ
  mi : ℕ
  s : ℕ
  sp1 : List Char
  sp2 : List Char
deriving Repr, DecidableEq

/-- Matcher for the timestamp core pattern of tsRegex and heartbeatRegex:
four digits, slash, two digits, slash, two digits, whitespace, three pairs of
two digits separated by colons, whitespace, three upper-case letters. -/
def matchTsCore (l : List Char) : Option (TsParts × List Char) :=
  (takeCount isDigitChar 4 l).bind fun y =>
  (litChar '/' y.2).bind fun r =>
  (takeCount isDigitChar 2 r).bind fun mo =>
  (litChar '/' mo.2).bind fun r =>
  (takeCount isDigitChar 2 r).bind fun d =>
  (takeSpaces1 d.2).bind fun sp1 =>
  (takeCount isDigitChar 2 sp1.2).bind fun h =>
  (litChar ':' h.2).bind fun r =>
  (takeCount isDigitChar 2 r).bind fun mi =>
  (litChar ':' mi.2).bind fun r =>
  (takeCount isDigitChar 2 r).bind fun s =>
  (takeSpaces1 s.2).bind fun sp2 =>
  (takeCount isUpperAZ 3 sp2.2).map fun tz =>
    ({ y := digitsVal y.1, mo := digitsVal mo.1, d := digitsVal d.1,
       h := digitsVal h.1, mi := digitsVal mi.1, s := digitsVal s.1,
       sp1 := sp1.1, sp2 := sp2.1 }, tz.2)

/-- Full match of tsRegex: the timestamp core, then whitespace, then the rest
of the line (group two). -/
def matchTsLine (l : List Char) : Option (TsParts × List Char) :=
  (matchTsCore l).bind fun p =>
  (takeSpaces1 p.2).map fun sp => (p.1, sp.2)

/-- Go time.Parse on the layout 2006/01/02 15:04:05 MST: the whitespace runs
must be single spaces and the field values must be in range (the per-month day
count check of time.Parse is approximated by the bound 31; all embedded
corpora use valid dates). -/
def parseTsParts (p : TsParts) : Option ℤ :=
  if p.sp1 = [' '] && p.sp2 = [' '] &&
     decide (1 ≤ p.mo) && decide (p.mo ≤ 12) && decide (1 ≤ p.d) && decide (p.d ≤ 31) &&
     decide (p.h ≤ 23) && decide (p.mi ≤ 59) && decide (p.s ≤ 59) then
    some ((((((p.y * 100 + p.mo) * 100 + p.d) * 100 + p.h) * 100 + p.mi) * 100 + p.s : ℕ) : ℤ)
  else none

/-- Matcher for heartbeatRegex: two percent signs, optional whitespace, the
literal time colon, optional whitespace, then the timestamp core; the rest of
the line is ignored (the pattern is not end-anchored). -/
def matchHeartbeat (l : List Char) : Option TsParts :=
  (litList ['%', '%'] l).bind fun r =>
  (litList "time:".data (r.dropWhile isSpaceChar)).bind fun r =>
  (matchTsCore (r.dropWhile isSpaceChar)).map (·.1)

/-- Model of Go strings.Contains on character lists. -/
def containsSeq (pat : List Char) : List Char → Bool
  | [] => pat.isEmpty
  | c :: rest => pat.isPrefixOf (c :: rest) || containsSeq pat rest

/-- Matcher for the meeting-marker patterns: two percent signs, optional
whitespace, then the given literal marker text. -/
def matchesMeetingMarker (marker : List Char) (l : List Char) : Bool :=
  match litList ['%', '%'] l with
  | none => false
  | some r => (litList marker (r.dropWhile isSpaceChar)).isSome

/-- Parsed transcript line (source: last.LogLine). -/
structure LogLine where
  timestamp : ℤ
  raw : String
  isMetadata : Bool
  isMeetingStart : Bool
  isMeetingEnd : Bool
deriving Repr, DecidableEq, Inhabited

/-- Meeting interval (source: last.MeetingInterval). -/
structure MeetingInterval where
  startIndex : ℕ
  endIndex : ℕ
  startTime : ℤ
  endTime : ℤ
deriving Repr, DecidableEq, Inhabited

/-- Source: parseLogLineWithHeartbeat.  Takes the current heartbeat (none for
the Go zero time) and the raw line; returns the parsed line, if any, and the
updated heartbeat. -/
def parseLine (hb : Option ℤ) (raw : String) : Option LogLine × Option ℤ :=
  let l := raw.data
  match matchTsLine l with
  | some pr =>
    match parseTsParts pr.1 with
    | none => (none, hb)
    | some t =>
      let rest := (trimSpace ⟨pr.2⟩).data
      (some { timestamp := t, raw := raw
              isMetadata := ['%','%','%'].isPrefixOf rest || ['#','#','#'].isPrefixOf rest
              isMeetingStart := containsSeq "%%% meeting started".data rest
              isMeetingEnd := containsSeq "%%% meeting ended".data rest },
       some t)
  | none =>
    match matchHeartbeat l with
    | some p =>
      match parseTsParts p with
      | none => (none, hb)
      | some t =>
        (some { timestamp := t, raw := raw, isMetadata := true
                isMeetingStart := false, isMeetingEnd := false }, some t)
    | none =>
      if matchesMeetingMarker "meeting started:".data l then
        (some { timestamp := hb.getD 0, raw := raw, isMetadata := true
                isMeetingStart := true, isMeetingEnd := false }, hb)
      else if matchesMeetingMarker "meeting ended:".data l then
        (some { timestamp := hb.getD 0, raw := raw, isMetadata := true
                isMeetingStart := false, isMeetingEnd := true }, hb)
      else if ['%','%'].isPrefixOf l then
        (some { timestamp := hb.getD 0, raw := raw, isMetadata := true
                isMeetingStart := false, isMeetingEnd := false }, hb)
      else
        match hb with
        | some t =>
          (some { timestamp := t, raw := raw, isMetadata := false
                  isMeetingStart := false, isMeetingEnd := false }, hb)
        | none => (none, hb)

/-- Source: the scanner loop of readAndParseFile; blank lines are skipped and
the heartbeat threads through the remaining lines.  hb0 is the heartbeat
seeded from the file name, when present. -/
def parseLines (hb0 : Option ℤ) : List String → List LogLine
  | [] => []
  | raw :: rest =>
    if trimSpace raw = "" then parseLines hb0 rest
    else
      match parseLine hb0 raw with
      | (some ln, hb) => ln :: parseLines hb rest
      | (none, hb) => parseLines hb rest

/-- Insert a line into a list sorted by timestamp, after existing lines with
the same timestamp. -/
def insertTs (x : LogLine) : List LogLine → List LogLine
  | [] => [x]
  | y :: ys => if x.timestamp < y.timestamp then x :: y :: ys else y :: insertTs x ys

/-- Model of the sort.Slice call in Run: ascending by timestamp.  sort.Slice
is not stable in general, but on fewer than twelve elements it runs insertion
sort, which never exchanges lines with equal timestamps; the insertion sort
here has the same behavior. -/
def sortByTs (l : List LogLine) : List LogLine :=
  l.foldl (fun acc x => insertTs x acc) []

/-- Source: filterByTimeBefore (timestamp at most the cutoff). -/
def filterByTimeBefore (lines : List LogLine) (cutoff : ℤ) : List LogLine :=
  lines.filter (fun ln => decide (ln.timestamp ≤ cutoff))

/-- Indexing with the Go zero value out of range. -/
def lineAt (all : List LogLine) (i : ℕ) : LogLine := all.getD i default

/-- One iteration of the findMeetingIntervals loop at index i: a meeting start
closes any open interval at the previous index and opens a new one; a meeting
end closes the open interval, if any, at the current index. -/
def fmiStep (all : List LogLine) (st : Option ℕ × List MeetingInterval) (i : ℕ) :
    Option ℕ × List MeetingInterval :=
  if (lineAt all i).isMeetingStart then
    match st.1 with
    | some s =>
      (some i, st.2 ++ [⟨s, i - 1, (lineAt all s).timestamp,
                         (lineAt all (i - 1)).timestamp⟩])
    | none => (some i, st.2)
  else if (lineAt all i).isMeetingEnd then
    match st.1 with
    | some s =>
      (none, st.2 ++ [⟨s, i, (lineAt all s).timestamp, (lineAt all i).timestamp⟩])
    | none => (none, st.2)
  else st

/-- Source: findMeetingIntervals.  A still-open start after the pass closes at
the last line. -/
def findMeetingIntervals (all : List LogLine) : List MeetingInterval :=
  let r := (List.range all.length).foldl (fmiStep all) (none, [])
  match r.1 with
  | some s =>
    r.2 ++ [{ startIndex := s, endIndex := all.length - 1,
              startTime := (lineAt all s).timestamp,
              endTime := (lineAt all (all.length - 1)).timestamp }]
  | none => r.2

/-- Source: the metadata filter in gatherAndPrintMeetings: without keepmeta,
metadata lines other than meeting start or end markers are skipped. -/
def keepInMeeting (keepMeta : Bool) (ln : LogLine) : Bool :=
  keepMeta || !(ln.isMetadata && !(ln.isMeetingStart || ln.isMeetingEnd))

/-- Lines printed for one interval. -/
def gatherOne (all : List LogLine) (iv : MeetingInterval) (keepMeta : Bool) : List String :=
  ((List.range (iv.endIndex + 1 - iv.startIndex)).map
      (fun k => lineAt all (iv.startIndex + k))).filterMap
    (fun ln => if keepInMeeting keepMeta ln then some ln.raw else none)

/-- Source: gatherAndPrintMeetings; a separator line is printed between
consecutive intervals. -/
def gatherMeetings (all : List LogLine) (ivs : List MeetingInterval) (keepMeta : Bool) :
    List String :=
  List.intercalate ["======"] (ivs.map (fun iv => gatherOne all iv keepMeta))

/-- Source: the meetings arm of Run: keep the last n intervals when at least n
exist, otherwise all of them. -/
def selectLast (n : ℕ) (ivs : List MeetingInterval) : List MeetingInterval :=
  if n ≤ ivs.length then ivs.drop (ivs.length - n) else ivs

/-- The full meetings pipeline of Run: parse, sort ascending, keep lines up to
the as-of cutoff, build intervals, select the last n, print. -/
def lastMeetingsRun (raws : List String) (hb0 : Option ℤ) (n : ℕ) (cutoff : ℤ)
    (keepMeta : Bool) : List String :=
  let all := sortByTs (parseLines hb0 raws)
  let before := filterByTimeBefore all cutoff
  gatherMeetings before (selectLast n (findMeetingIntervals before)) keepMeta

/-! ## Concrete corpus for scenario S6 / claim C2

One transcript file holding one complete Meet meeting: a heartbeat (so that
plain lines carry timestamps), the start marker, the title line, two plain
lines, the end marker. -/

def c2Start : String := "%% meeting started: 2024/01/15 14:30:00 EST meet/abc-defg-hij"
def c2Title : String := "%% meeting title: Standup"
def c2Plain1 : String := "Hello everyone"
def c2Plain2 : String := "Let us begin"
def c2End : String := "%% meeting ended: 2024/01/15 14:45:00 EST meet (duration: 15m)"

def c2Lines : List String :=
  ["%% time: 2024/01/15 14:00:00 EST", c2Start, c2Title, c2Plain1, c2Plain2, c2End]

/-- A query time later the same day. -/
def c2Cutoff : ℤ := 20240115235959

/-- The lines from the start marker through the end marker inclusive,
including the title line: the output the claim asserts. -/
def c2FullSlice : List String := [c2Start, c2Title, c2Plain1, c2Plain2, c2End]

/-! ## Receive-loop write stream

The recv loop of runTranscription writes the chunk returned by ProcessWord for
each Word message and by ProcessEndOfTurn for each end-of-turn Step; empty
chunks write nothing, which coincides with appending the empty string. -/

/-- Events of the recv loop that produce write output. -/
inductive PEvent where
  | word (w : String) (t : ℤ)
  | endTurn
deriving Repr, DecidableEq

/-- Process one event: the emitted chunk and the new processor state. -/
def ppEvent (p : PP) : PEvent → String × PP
  | .word w t => processWord p w t
  | .endTurn => processEndOfTurn p

/-- Concatenated write output of an event sequence from a given state. -/
def runPPFrom (p : PP) : List PEvent → String × PP
  | [] => ("", p)
  | e :: evs =>
    let r := ppEvent p e
    let rest := runPPFrom r.2 evs
    (r.1 ++ rest.1, rest.2)

/-- Write output of an event sequence from the fresh processor used by the
supervisor (pause threshold in milliseconds, line length 80). -/
def runPP (pauseThreshold : ℤ) (evs : List PEvent) : String :=
  (runPPFrom (initPP pauseThreshold 80) evs).1

/-- Benign word event: the text contains no newline and its trimmed form does
not begin with two percent signs. -/
def wordEventOK : PEvent → Bool
  | .word w _ => decide ('\n' ∉ w.data) && !(['%','%'].isPrefixOf (trimSpace w).data)
  | .endTurn => true

/-! ## Specification predicates for meeting intervals (claim C8) -/

/-- Coverage property of a single interval: it starts at a meeting-start line,
stays inside the list, contains no further meeting-start line, contains no
meeting-end line strictly inside, and closes either at a matched meeting-end
line, or at the index just before another meeting-start, or at the last line
(dangling start). -/
def ivOK (all : List LogLine) (iv : MeetingInterval) : Prop :=
  iv.startIndex ≤ iv.endIndex ∧ iv.endIndex < all.length ∧
  (lineAt all iv.startIndex).isMeetingStart = true ∧
  (∀ j, iv.startIndex < j → j ≤ iv.endIndex → (lineAt all j).isMeetingStart = false) ∧
  (∀ j, iv.startIndex < j → j < iv.endIndex → (lineAt all j).isMeetingEnd = false) ∧
  ((lineAt all iv.endIndex).isMeetingEnd = true ∨
   (lineAt all (iv.endIndex + 1)).isMeetingStart = true ∨
   iv.endIndex = all.length - 1)

/-- Intervals are ordered and pairwise disjoint: each ends strictly before the
next begins. -/
def chainOK (ivs : List MeetingInterval) : Prop :=
  List.Chain' (fun a b => a.endIndex < b.startIndex) ivs

/-- Indices of the meeting-start lines among the first n lines, in order. -/
def startsOf (all : List LogLine) (n : ℕ) : List ℕ :=
  (List.range n).filter (fun i => (lineAt all i).isMeetingStart)

/-- Loop state reached by findMeetingIntervals after scanning the first i
lines. -/
def fmiLoop (all : List LogLine) (i : ℕ) : Option ℕ × List MeetingInterval :=
  (List.range i).foldl (fmiStep all) (none, [])

/-- Invariant carried by the findMeetingIntervals loop. -/
def fmiInv (all : List LogLine) (i : ℕ) (st : Option ℕ × List MeetingInterval) : Prop :=
  chainOK st.2 ∧
  (∀ iv ∈ st.2, ivOK all iv ∧ iv.endIndex < i) ∧
  (match st.1 with
   | some s =>
     s < i ∧ (lineAt all s).isMeetingStart = true ∧
     (∀ j, s < j → j < i →
        (lineAt all j).isMeetingStart = false ∧ (lineAt all j).isMeetingEnd = false) ∧
     (∀ iv ∈ st.2, iv.endIndex < s) ∧
     st.2.map (fun iv => iv.startIndex) ++ [s] = startsOf all i
   | none => st.2.map (fun iv => iv.startIndex) = startsOf all i)

/-- Small concrete line list: a plain line, a start marker, a plain line, an
end marker, a plain line. -/
def c8Demo : List LogLine :=
  [{ timestamp := 1, raw := "before", isMetadata := false,
     isMeetingStart := false, isMeetingEnd := false },
   { timestamp := 2, raw := "%% meeting started: x", isMetadata := true,
     isMeetingStart := true, isMeetingEnd := false },
   { timestamp := 3, raw := "inside", isMetadata := false,
     isMeetingStart := false, isMeetingEnd := false },
   { timestamp := 4, raw := "%% meeting ended: x", isMetadata := true,
     isMeetingStart := false, isMeetingEnd := true },
   { timestamp := 5, raw := "after", isMetadata := false,
     isMeetingStart := false, isMeetingEnd := false }]

/-! ## Concrete witnesses for the reconnect run -/

/-- Cancellation schedule that never fires. -/
def rcNoCancel : ℕ → Bool := fun _ => false

/-- Dial schedule whose third attempt succeeds. -/
def rcOkThird : ℕ → Bool := fun n => n = 3

/-! # Theorems -/

/-! ## Generic helper lemmas -/

theorem dropWhile_head_false (p : Char → Bool) :
    ∀ (l : List Char) (c : Char) (cs : List Char), l.dropWhile p = c :: cs → p c = false := by
  intro l
  induction l with
  | nil => intro c cs h; simp [List.dropWhile] at h
  | cons a as ih =>
    intro c cs h
    by_cases hp : p a
    · rw [List.dropWhile_cons_of_pos hp] at h
      exact ih c cs h
    · rw [List.dropWhile_cons_of_neg hp] at h
      cases h
      simpa using hp

theorem dropTrailing_isPrefix (p : Char → Bool) (l : List Char) : dropTrailing p l <+: l := by
  unfold dropTrailing
  conv_rhs => rw [← l.reverse_reverse]
  rw [List.reverse_prefix]
  exact List.dropWhile_suffix p

theorem trimSpace_head (w : String) (h : trimSpace w ≠ "") :
    ∃ c cs, (trimSpace w).data = c :: cs ∧ isSpaceChar c = false := by
  have hd : (trimSpace w).data = dropTrailing isSpaceChar (w.data.dropWhile isSpaceChar) := rfl
  have hne : (trimSpace w).data ≠ [] := by
    intro he
    apply h
    apply String.ext
    rw [he]
  rcases he : (trimSpace w).data with _ | ⟨c, cs⟩
  · exact absurd he hne
  · refine ⟨c, cs, rfl, ?_⟩
    have hpfx : dropTrailing isSpaceChar (w.data.dropWhile isSpaceChar) <+:
        w.data.dropWhile isSpaceChar := dropTrailing_isPrefix _ _
    rw [← hd, he] at hpfx
    rcases hpfx with ⟨t, ht⟩
    exact dropWhile_head_false isSpaceChar w.data c (cs ++ t) ht.symm

theorem trimSpace_mem (w : String) (a : Char) (ha : a ∈ (trimSpace w).data) : a ∈ w.data := by
  have h1 : a ∈ w.data.dropWhile isSpaceChar :=
    (dropTrailing_isPrefix isSpaceChar _).subset ha
  exact (List.dropWhile_suffix isSpaceChar).subset h1

theorem nlCount_cons_nl (l : List Char) : nlCount ('\n' :: l) = nlCount l + 1 := by
  simp [nlCount, List.takeWhile]

theorem nlCount_cons_ne (c : Char) (l : List Char) (h : ¬ c = '\n') : nlCount (c :: l) = 0 := by
  simp [nlCount, List.takeWhile, h]

theorem nlCount_nil : nlCount [] = 0 := rfl

/-! ## Post-processor break rules -/

theorem overflowBreak_false_of_break (p : PP) (word : String) (now : ℤ)
    (h : pauseBreak p now = true ∨ sentenceBreak p word = true) :
    overflowBreak p word now = false := by
  unfold overflowBreak lineAfterBreaks
  rcases h with h | h
  · by_cases h2 : sentenceBreak p word <;> simp [h, h2]
  · simp [h]

/-! ## Claim C9: StepMessage.IsEndOfTurn -/

/-- C9: IsEndOfTurn is total on every Step message: it is true exactly when
there are at least three probability heads, the third head is non-empty, and
its first entry exceeds one half; with fewer than three heads, or an empty
third head, it is false rather than an out-of-bounds access. -/
theorem isEndOfTurn_characterization (prs : List (List ℚ)) :
    (isEndOfTurn prs = true ↔
      3 ≤ prs.length ∧ prs.getD 2 [] ≠ [] ∧ (1 : ℚ)/2 < (prs.getD 2 []).getD 0 0)
    ∧ (prs.length < 3 → isEndOfTurn prs = false)
    ∧ (prs.getD 2 [] = [] → isEndOfTurn prs = false) := by
  unfold isEndOfTurn
  refine ⟨?_, ?_, ?_⟩ <;> split_ifs with h1 h2 <;>
    simp_all [not_lt, List.length_eq_zero]

/-- Witness for C9 at the Step payload of scenario S3. -/
theorem isEndOfTurn_characterization_witness :
    isEndOfTurn [[1/10], [2/10], [9/10], [3/10]] = true :=
  (isEndOfTurn_characterization [[1/10], [2/10], [9/10], [3/10]]).1.mpr
    ⟨by norm_num, by norm_num [List.getD_cons_succ, List.getD_cons_zero],
     by norm_num [List.getD_cons_succ, List.getD_cons_zero]⟩

/-! ## Claim C10: ProcessEndOfTurn -/

/-- C10: ProcessEndOfTurn clears currentLine and lastWord but leaves
hasContent, so whenever a call returns a paragraph break, an immediately
following call with no intervening words returns a paragraph break again. -/
theorem processEndOfTurn_state (p : PP) :
    ((processEndOfTurn p).1 = "\n\n" →
      (processEndOfTurn (processEndOfTurn p).2).1 = "\n\n")
    ∧ (processEndOfTurn p).2.hasContent = p.hasContent
    ∧ (p.hasContent = true →
        (processEndOfTurn p).1 = "\n\n" ∧
        (processEndOfTurn p).2.currentLine = "" ∧ (processEndOfTurn p).2.lastWord = "")
    ∧ (p.hasContent = false → (processEndOfTurn p).1 = "") := by
  by_cases h : p.hasContent = true
  · simp [processEndOfTurn, h]
  · simp only [Bool.not_eq_true] at h
    have hne : ("" : String) ≠ "\n\n" := by decide
    simp [processEndOfTurn, h, hne]

/-- Witness for C10: from a state with content, two consecutive end-of-turn
events both emit a paragraph break. -/
theorem processEndOfTurn_state_witness :
    (processEndOfTurn (processEndOfTurn
      { pauseThreshold := 2000, maxLineLength := 80, lastWordTime := some 0,
        currentLine := "done.", lastWord := "done.", hasContent := true }).2).1 = "\n\n" :=
  (processEndOfTurn_state _).1 (by decide)

/-! ## Claim C3: plugin environment variables -/

/-- C3 (code bug): buildEnv names every variable with the LOCALDSMC prefix,
not the LOCALSCRIBE prefix the documentation promises; the output file
variable appears only when the path is non-empty, and the meeting duration
variable appears only for the meeting-end trigger. -/
theorem buildEnv_localdsmc_vars :
    buildEnv .onStart
        (some { outputFile := "/tmp/session.txt", meetingType := .meet,
                meetingCode := "", meetingTitle := "", meetingDurationSec := 0 })
        "2026-01-17T10:00:00Z"
      = ["LOCALDSMC_EVENT=on_start", "LOCALDSMC_TIMESTAMP=2026-01-17T10:00:00Z",
         "LOCALDSMC_OUTPUT_FILE=/tmp/session.txt"]
    ∧ (buildEnv .onStart
        (some { outputFile := "/tmp/session.txt", meetingType := .meet,
                meetingCode := "", meetingTitle := "", meetingDurationSec := 0 })
        "2026-01-17T10:00:00Z").all
        (fun v => !("LOCALSCRIBE_".data.isPrefixOf v.data)) = true
    ∧ (buildEnv .onMeetingStart
        (some { outputFile := "/tmp/s.txt", meetingType := .meet,
                meetingCode := "abc", meetingTitle := "Standup", meetingDurationSec := 0 })
        "TS").all
        (fun v => !("LOCALSCRIBE_".data.isPrefixOf v.data) &&
                  !("LOCALDSMC_MEETING_DURATION".data.isPrefixOf v.data)) = true := by
  decide

/-! ## Claim C6: dead-air watchdog -/

/-- C6 counterexample: at a threshold of 1.5 seconds the watchdog interval is
one second, not the 750 milliseconds demanded by the claimed formula
min(threshold / 2, 1 s) floored at 100 ms. -/
theorem watchdog_interval_counterexample :
    watchdogIntervalMs 1500 = 1000 ∧
    watchdogIntervalMs 1500 ≠ max (min ((1500 : ℤ) / 2) 1000) 100 := by
  decide

/-- C6 amended: the interval equals the claimed formula for thresholds below
one second or at least two seconds, and is pinned to one second in between; a
tick queries the tracker exactly when neither paused nor reconnecting, and the
one-slot dead-air channel never exceeds occupancy one (the enqueue is dropped
when the slot is taken). -/
theorem watchdog_interval_and_tick :
    (∀ t : ℤ, 0 < t → (t < 1000 ∨ 2000 ≤ t) →
      watchdogIntervalMs t = max (min (t / 2) 1000) 100)
    ∧ (∀ t : ℤ, 1000 ≤ t → t < 2000 → watchdogIntervalMs t = 1000)
    ∧ (∀ (paused reconnecting : Bool) (trk : Tracker) (th now : ℤ) (ch : ℕ),
        ch ≤ 1 → watchdogTick paused reconnecting trk th now ch ≤ 1)
    ∧ (∀ (paused reconnecting : Bool) (trk : Tracker) (th now : ℤ) (ch : ℕ),
        watchdogChecks paused reconnecting = false →
        watchdogTick paused reconnecting trk th now ch = ch)
    ∧ (∀ paused reconnecting : Bool,
        watchdogChecks paused reconnecting = true ↔ paused = false ∧ reconnecting = false)
    ∧ (∀ (trk : Tracker) (th now : ℤ) (ch : ℕ), 1 ≤ ch →
        watchdogTick false false trk th now ch = ch) := by
  refine ⟨?_, ?_, ?_, ?_, ?_, ?_⟩
  · intro t ht hc
    unfold watchdogIntervalMs
    rcases hc with hc | hc
    · split_ifs <;> omega
    · split_ifs <;> omega
  · intro t h1 h2
    unfold watchdogIntervalMs
    split_ifs <;> omega
  · intro paused reconnecting trk th now ch hch
    unfold watchdogTick
    split_ifs <;> omega
  · intro paused reconnecting trk th now ch hskip
    unfold watchdogChecks at hskip
    unfold watchdogTick
    cases hpr : (paused || reconnecting) with
    | false => rw [hpr] at hskip; exact absurd hskip (by decide)
    | true => simp
  · intro paused reconnecting
    cases paused <;> cases reconnecting <;> decide
  · intro trk th now ch hch
    unfold watchdogTick
    split_ifs <;> omega

/-- Witness for C6 at a threshold of half a second and a full channel. -/
theorem watchdog_interval_and_tick_witness :
    watchdogIntervalMs 500 = max (min ((500 : ℤ) / 2) 1000) 100 ∧
    watchdogTick false false initTracker 2000 0 1 = 1 :=
  ⟨watchdog_interval_and_tick.1 500 (by decide) (Or.inl (by decide)),
   watchdog_interval_and_tick.2.2.2.2.2 initTracker 2000 0 1 (by decide)⟩

/-! ## Claim C1: dead air in scenario S4 -/

theorem isAudioActive_of_count_zero (t : Tracker) (level : ℚ)
    (h : t.audioBaselineCount = 0) : isAudioActive t level = false := by
  simp [isAudioActive, h]

theorem trkStep_preserves_unset (t : Tracker) (e : ℤ × TrkEvent)
    (he : noOutputWord e = true)
    (h1 : t.audioBaselineCount = 0) (h2 : t.lastAudioActiveAt = none) :
    (trkStep t e).audioBaselineCount = 0 ∧ (trkStep t e).lastAudioActiveAt = none := by
  rcases e with ⟨tm, ev⟩
  cases ev with
  | connect => simp [trkStep, setConnected, h1, h2]
  | word w produced =>
    simp only [noOutputWord, Bool.not_eq_true'] at he
    simp [trkStep, recordWordMessage, he, h1, h2]
  | step eot => cases eot <;> simp [trkStep, recordStepMessage, h1, h2]
  | audio level =>
    simp only [trkStep, recordAudioLevel, h1, h2]
    rw [isAudioActive_of_count_zero _ _ rfl]
    simp

theorem foldl_trkStep_unset (evs : List (ℤ × TrkEvent)) :
    ∀ t : Tracker, (∀ e ∈ evs, noOutputWord e = true) →
    t.audioBaselineCount = 0 → t.lastAudioActiveAt = none →
    (evs.foldl trkStep t).audioBaselineCount = 0 ∧
    (evs.foldl trkStep t).lastAudioActiveAt = none := by
  induction evs with
  | nil => intro t _ h1 h2; exact ⟨h1, h2⟩
  | cons e rest ih =>
    intro t h h1 h2
    have he := h e (List.mem_cons_self e rest)
    have step := trkStep_preserves_unset t e he h1 h2
    exact ih (trkStep t e) (fun x hx => h x (List.mem_cons_of_mem e hx)) step.1 step.2

/-- C1 amended: in scenario S4, and in fact on every event trace in which no
word ever produces output, the adaptive audio baseline is never initialized,
no frame counts as audio-active, and IsDeadAir stays false at every threshold
and time, so the supervisor is never asked to reconnect. -/
theorem no_word_output_no_dead_air (evs : List (ℤ × TrkEvent))
    (h : ∀ e ∈ evs, noOutputWord e = true) (threshold now : ℤ) :
    isDeadAir (runTrk evs) threshold now = false := by
  have hinv : (runTrk evs).audioBaselineCount = 0 ∧ (runTrk evs).lastAudioActiveAt = none :=
    foldl_trkStep_unset evs initTracker h rfl rfl
  rcases hinv with ⟨-, hA⟩
  unfold isDeadAir
  rcases hS : (runTrk evs).lastStepAt with _ | s
  · simp [hS]
  · simp [hS, hA]

set_option maxRecDepth 4000 in
/-- C1 counterexample: on the S4 trace (threshold 2 s, local audio RMS 0.5
every 80 ms for 2.5 s, Step messages every 500 ms, no Word messages),
IsDeadAir is still false at t = 2.5 s even though more than the threshold has
elapsed since the connection at t = 0, so no reconnect is triggered. -/
theorem s4_dead_air_counterexample :
    isDeadAir (runTrk s4Trace) 2000 2500 = false ∧ (2000 : ℤ) ≤ 2500 - 0 := by
  constructor
  · decide
  · decide

/-- Witness for C1 at the concrete S4 trace. -/
theorem no_word_output_no_dead_air_witness :
    isDeadAir (runTrk s4Trace) 2000 2500 = false :=
  no_word_output_no_dead_air s4Trace (by decide) 2000 2500

/-! ## Claim C2: last 1 meetings on a corpus with a meeting title -/

/-- C2 counterexample: on the S6 corpus, the query last 1 meetings without
keepmeta emits the two markers and the plain lines but not the meeting-title
line, so the output is not the full marker-to-marker slice the claim
demands. -/
theorem meetings_query_title_counterexample :
    lastMeetingsRun c2Lines none 1 c2Cutoff false = [c2Start, c2Plain1, c2Plain2, c2End]
    ∧ lastMeetingsRun c2Lines none 1 c2Cutoff false ≠ c2FullSlice := by
  constructor
  · decide
  · decide

/-- C2 amended: the query emits exactly the lines of the single meeting
interval with non-marker metadata removed: the start marker, the plain lines,
and the end marker, in order, with nothing before or after, no separator line
and no title line; with keepmeta the full inclusive slice appears. -/
theorem meetings_query_markers_and_plain :
    lastMeetingsRun c2Lines none 1 c2Cutoff false = [c2Start, c2Plain1, c2Plain2, c2End]
    ∧ "======" ∉ lastMeetingsRun c2Lines none 1 c2Cutoff false
    ∧ c2Title ∉ lastMeetingsRun c2Lines none 1 c2Cutoff false
    ∧ lastMeetingsRun c2Lines none 1 c2Cutoff true = c2FullSlice := by
  refine ⟨by decide, by decide, by decide, by decide⟩

/-! ## Claim C4 counterexample: two break rules can fire together -/

/-- C4 counterexample: with a pause longer than the threshold and a sentence
boundary at the same word, ProcessWord prepends two newline characters, not at
most one: the three rules are successive independent checks. -/
theorem processWord_double_newline :
    (processWord
      { pauseThreshold := 2000, maxLineLength := 80, lastWordTime := some 0,
        currentLine := "done.", lastWord := "done.", hasContent := true }
      "Hello" 3000).1 = "\n\nHello"
    ∧ 1 < nlCount (processWord
      { pauseThreshold := 2000, maxLineLength := 80, lastWordTime := some 0,
        currentLine := "done.", lastWord := "done.", hasContent := true }
      "Hello" 3000).1.data := by
  constructor
  · decide
  · decide

/-! ## Claim C5 counterexample: a server word that begins with percent signs -/

/-- C5 counterexample: the post-processor performs no sanitization, so a
server-supplied word beginning with two percent signs is written verbatim at
the start of a line, and that line, when trimmed, begins with the metadata
marker. -/
theorem write_line_percent_counterexample :
    runPP 2000 [PEvent.word "%%evil" 0] = "%%evil"
    ∧ cleanLine (runPP 2000 [PEvent.word "%%evil" 0]).data = false
    ∧ linesOf (runPP 2000 [PEvent.word "%%evil" 0]).data = ["%%evil".data] := by
  refine ⟨by decide, by decide, by decide⟩

/-! ## Claim C4 amended: the break rules as independent checks -/

theorem lineAfterBreaks_empty_of_break (p : PP) (word : String) (now : ℤ)
    (h : pauseBreak p now = true ∨ sentenceBreak p word = true) :
    lineAfterBreaks p word now = "" := by
  unfold lineAfterBreaks
  rcases h with h | h
  · by_cases h2 : sentenceBreak p word <;> simp [h, h2]
  · simp [h]

theorem lineFinal_empty_of_break (p : PP) (word : String) (now : ℤ)
    (h : pauseBreak p now = true ∨ sentenceBreak p word = true ∨
         overflowBreak p word now = true) :
    lineFinal p word now = "" := by
  unfold lineFinal
  rcases h with h | h | h
  · rw [lineAfterBreaks_empty_of_break p word now (Or.inl h)]
    split_ifs <;> rfl
  · rw [lineAfterBreaks_empty_of_break p word now (Or.inr h)]
    split_ifs <;> rfl
  · simp [h]

theorem lineFinal_no_break (p : PP) (word : String) (now : ℤ)
    (h1 : pauseBreak p now = false) (h2 : sentenceBreak p word = false)
    (h3 : overflowBreak p word now = false) :
    lineFinal p word now = p.currentLine := by
  unfold lineFinal lineAfterBreaks
  simp [h1, h2, h3]

/-- Number of break rules that fire for this state and word. -/
theorem nlCount_replicate_append (k : ℕ) (l : List Char) (h : nlCount l = 0) :
    nlCount (List.replicate k '\n' ++ l) = k := by
  induction k with
  | zero => simpa using h
  | succ n ih =>
    rw [List.replicate_succ, List.cons_append, nlCount_cons_nl, ih]

/-- Shape of the ProcessWord output chunk and of the updated currentLine: some
newlines (one per fired rule), then an optional separating space, then the
trimmed word; currentLine holds the suffix of the chunk after the last
newline, appended to whatever the rules left of the previous line. -/
theorem processWord_shape (p : PP) (w : String) (now : ℤ) (hw : trimSpace w ≠ "") :
    (processWord p w now).1.data
      = List.replicate
          ((if pauseBreak p now then 1 else 0) +
           (if sentenceBreak p (trimSpace w) then 1 else 0) +
           (if overflowBreak p (trimSpace w) now then 1 else 0)) '\n'
        ++ (if 0 < (lineFinal p (trimSpace w) now).length
            then ' ' :: (trimSpace w).data else (trimSpace w).data)
    ∧ (processWord p w now).2.currentLine.data
      = (lineFinal p (trimSpace w) now).data
        ++ (if 0 < (lineFinal p (trimSpace w) now).length
            then ' ' :: (trimSpace w).data else (trimSpace w).data) := by
  have hover : ∀ _ : pauseBreak p now = true ∨ sentenceBreak p (trimSpace w) = true,
      overflowBreak p (trimSpace w) now = false :=
    fun hb => overflowBreak_false_of_break p (trimSpace w) now hb
  have hemplen : ¬ (0 < ("" : String).length) := by decide
  unfold processWord
  rw [if_neg hw]
  cases hb1 : pauseBreak p now <;> cases hb2 : sentenceBreak p (trimSpace w)
  · cases hb3 : overflowBreak p (trimSpace w) now
    · by_cases hsp0 : 0 < (lineFinal p (trimSpace w) now).length
      · simp [hb1, hb2, hb3, hsp0, String.data_append]
      · simp [hb1, hb2, hb3, hsp0, String.data_append]
    · have hlf : lineFinal p (trimSpace w) now = "" :=
        lineFinal_empty_of_break p (trimSpace w) now (Or.inr (Or.inr hb3))
      simp [hb1, hb2, hb3, hlf, hemplen, String.data_append]
  · have hb3 := hover (Or.inr hb2)
    have hlf : lineFinal p (trimSpace w) now = "" :=
      lineFinal_empty_of_break p (trimSpace w) now (Or.inr (Or.inl hb2))
    simp [hb1, hb2, hb3, hlf, hemplen, String.data_append]
  · have hb3 := hover (Or.inl hb1)
    have hlf : lineFinal p (trimSpace w) now = "" :=
      lineFinal_empty_of_break p (trimSpace w) now (Or.inl hb1)
    simp [hb1, hb2, hb3, hlf, hemplen, String.data_append]
  · have hb3 := hover (Or.inl hb1)
    have hlf : lineFinal p (trimSpace w) now = "" :=
      lineFinal_empty_of_break p (trimSpace w) now (Or.inl hb1)
    simp [hb1, hb2, hb3, hlf, hemplen, String.data_append, List.replicate_succ]

/-- C4 amended: for every non-empty trimmed word, the number of newline
characters prepended by ProcessWord is the number of break rules that fired;
the line-length rule cannot fire once the pause rule or the sentence-boundary
rule has fired (currentLine is already reset), so at most two newlines are
prepended, and at most one unless the pause rule and the sentence-boundary
rule fire together. -/
theorem processWord_break_rules (p : PP) (w : String) (now : ℤ)
    (hw : trimSpace w ≠ "") :
    nlCount (processWord p w now).1.data
      = ((if pauseBreak p now then 1 else 0) +
         (if sentenceBreak p (trimSpace w) then 1 else 0) +
         (if overflowBreak p (trimSpace w) now then 1 else 0))
    ∧ (overflowBreak p (trimSpace w) now = true →
        pauseBreak p now = false ∧ sentenceBreak p (trimSpace w) = false)
    ∧ nlCount (processWord p w now).1.data ≤ 2
    ∧ (¬(pauseBreak p now = true ∧ sentenceBreak p (trimSpace w) = true) →
        nlCount (processWord p w now).1.data ≤ 1) := by
  obtain ⟨c, cs, hcd, hcs⟩ := trimSpace_head w hw
  have hcn : ¬ c = '\n' := by
    intro h
    rw [h] at hcs
    exact absurd hcs (by decide)
  have hword0 : nlCount (trimSpace w).data = 0 := by
    rw [hcd]; exact nlCount_cons_ne c cs hcn
  have htail0 : nlCount (if 0 < (lineFinal p (trimSpace w) now).length
      then ' ' :: (trimSpace w).data else (trimSpace w).data) = 0 := by
    split_ifs
    · exact nlCount_cons_ne ' ' _ (by decide)
    · exact hword0
  have hshape := (processWord_shape p w now hw).1
  have hcount : nlCount (processWord p w now).1.data
      = ((if pauseBreak p now then 1 else 0) +
         (if sentenceBreak p (trimSpace w) then 1 else 0) +
         (if overflowBreak p (trimSpace w) now then 1 else 0)) := by
    rw [hshape]
    exact nlCount_replicate_append _ _ htail0
  have hover : overflowBreak p (trimSpace w) now = true →
      pauseBreak p now = false ∧ sentenceBreak p (trimSpace w) = false := by
    intro h3
    constructor
    · cases hb1 : pauseBreak p now
      · rfl
      · rw [overflowBreak_false_of_break p (trimSpace w) now (Or.inl hb1)] at h3
        exact absurd h3 (by decide)
    · cases hb2 : sentenceBreak p (trimSpace w)
      · rfl
      · rw [overflowBreak_false_of_break p (trimSpace w) now (Or.inr hb2)] at h3
        exact absurd h3 (by decide)
  refine ⟨hcount, hover, ?_, ?_⟩
  · rw [hcount]
    cases hb3 : overflowBreak p (trimSpace w) now
    · cases pauseBreak p now <;> cases sentenceBreak p (trimSpace w) <;> simp
    · rcases hover hb3 with ⟨h1, h2⟩
      simp [h1, h2]
  · intro hnot
    rw [hcount]
    cases hb3 : overflowBreak p (trimSpace w) now
    · cases hb1 : pauseBreak p now <;> cases hb2 : sentenceBreak p (trimSpace w) <;>
        simp_all
    · rcases hover hb3 with ⟨h1, h2⟩
      simp [h1, h2]

/-- Witness for C4: a single word into a fresh processor prepends at most one
newline. -/
theorem processWord_break_rules_witness :
    nlCount (processWord (initPP 2000 80) "hello" 5).1.data ≤ 1 :=
  (processWord_break_rules (initPP 2000 80) "hello" 5 (by decide)).2.2.2 (by decide)

/-! ## Claim C7: reconnect backoff -/

theorem delaySeq_one : delaySeq 1 = 1 := by decide

theorem delaySeq_succ (n : ℕ) (hn : 1 ≤ n) :
    min (delaySeq n * 2) 60 = delaySeq (n + 1) := by
  unfold delaySeq
  have ha : 1 ≤ 2 ^ (n - 1) := Nat.one_le_two_pow
  have hpow : 2 ^ (n - 1) * 2 = 2 ^ n := by
    rw [← pow_succ]
    congr 1
    omega
  rw [show n + 1 - 1 = n from rfl, ← hpow]
  omega

theorem reconnectRun_props (c ok : ℕ → Bool) :
    ∀ (fuel n : ℕ), 1 ≤ n →
    (∀ k d, RcEvent.attemptCall k d ∈ (reconnectRun c ok fuel n (delaySeq n)).1 →
      d = delaySeq k)
    ∧ attemptThenSleep (reconnectRun c ok fuel n (delaySeq n)).1 = true
    ∧ (∀ m, (reconnectRun c ok fuel n (delaySeq n)).2 = some (.connected m) →
        ok m = true ∧ c m = false ∧ ∀ j, n ≤ j → j < m → ok j = false ∧ c j = false)
    ∧ (∀ m, (reconnectRun c ok fuel n (delaySeq n)).2 = some (.cancelled m) →
        c m = true ∧ ∀ j, n ≤ j → j < m → ok j = false ∧ c j = false)
    ∧ ((reconnectRun c ok fuel n (delaySeq n)).2 = none →
        ∀ j, n ≤ j → j < n + fuel → ok j = false ∧ c j = false) := by
  intro fuel
  induction fuel with
  | zero =>
    intro n hn
    refine ⟨?_, ?_, ?_, ?_, ?_⟩ <;> simp [reconnectRun, attemptThenSleep]
    intro j h1 h2
    omega
  | succ f ih =>
    intro n hn
    by_cases hc : c n = true
    · rw [show reconnectRun c ok (f + 1) n (delaySeq n) = ([], some (.cancelled n)) by
        simp [reconnectRun, hc]]
      refine ⟨?_, ?_, ?_, ?_, ?_⟩
      · intro k d hk
        simp at hk
      · rfl
      · intro m hm
        simp at hm
      · intro m hm
        simp at hm
        rcases hm with rfl
        exact ⟨hc, fun j h1 h2 => absurd h1 (by omega)⟩
      · intro hm
        simp at hm
    · by_cases hok : ok n = true
      · rw [show reconnectRun c ok (f + 1) n (delaySeq n)
            = ([RcEvent.attemptCall n (delaySeq n), RcEvent.sleepFor (delaySeq n),
                RcEvent.dialTry n (ok n)], some (.connected n)) by
          simp [reconnectRun, hc, hok]]
        refine ⟨?_, ?_, ?_, ?_, ?_⟩
        · intro k d hk
          simp at hk
          rcases hk with ⟨rfl, rfl⟩
          rfl
        · simp [attemptThenSleep]
        · intro m hm
          simp at hm
          rcases hm with rfl
          exact ⟨hok, by simpa using hc, fun j h1 h2 => absurd h1 (by omega)⟩
        · intro m hm
          simp at hm
        · intro hm
          simp at hm
      · have hstep : reconnectRun c ok (f + 1) n (delaySeq n)
            = ([RcEvent.attemptCall n (delaySeq n), RcEvent.sleepFor (delaySeq n),
                RcEvent.dialTry n (ok n)]
                ++ (reconnectRun c ok f (n + 1) (delaySeq (n + 1))).1,
               (reconnectRun c ok f (n + 1) (delaySeq (n + 1))).2) := by
          rw [← delaySeq_succ n hn]
          simp [reconnectRun, hc, hok]
        have hr := ih (n + 1) (by omega)
        rw [hstep]
        refine ⟨?_, ?_, ?_, ?_, ?_⟩
        · intro k d hk
          simp only [List.mem_append, List.mem_cons, List.not_mem_nil, or_false] at hk
          rcases hk with (hk | hk | hk) | hk
          · rcases RcEvent.attemptCall.injEq .. ▸ hk with ⟨rfl, rfl⟩
            rfl
          · exact absurd hk (by simp)
          · exact absurd hk (by simp)
          · exact hr.1 k d hk
        · simp only [List.cons_append, List.nil_append, attemptThenSleep]
          simp [hr.2.1]
        · intro m hm
          simp only at hm
          have := hr.2.2.1 m hm
          refine ⟨this.1, this.2.1, fun j h1 h2 => ?_⟩
          rcases Nat.eq_or_lt_of_le h1 with rfl | hj
          · exact ⟨by simpa using hok, by simpa using hc⟩
          · exact this.2.2 j (by omega) h2
        · intro m hm
          simp only at hm
          have := hr.2.2.2.1 m hm
          refine ⟨this.1, fun j h1 h2 => ?_⟩
          rcases Nat.eq_or_lt_of_le h1 with rfl | hj
          · exact ⟨by simpa using hok, by simpa using hc⟩
          · exact this.2 j (by omega) h2
        · intro hm j h1 h2
          simp only at hm
          rcases Nat.eq_or_lt_of_le h1 with rfl | hj
          · exact ⟨by simpa using hok, by simpa using hc⟩
          · exact hr.2.2.2.2 hm j (by omega) (by omega)

/-- C7: the reconnect loop emits, before each sleep, an onAttempt event whose
delay follows the schedule 1, 2, 4, ... seconds, each double the previous and
capped at 60, and it keeps attempting until the first successful dial or the
first observed cancellation; the events before that point are exactly failed
dials. -/
theorem reconnect_backoff (c ok : ℕ → Bool) (fuel : ℕ) :
    (∀ k d, RcEvent.attemptCall k d ∈ (reconnectRun c ok fuel 1 1).1 → d = delaySeq k)
    ∧ attemptThenSleep (reconnectRun c ok fuel 1 1).1 = true
    ∧ (delaySeq 1 = 1 ∧ (∀ k, 1 ≤ k → delaySeq (k + 1) = min (delaySeq k * 2) 60)
        ∧ ∀ k, delaySeq k ≤ 60)
    ∧ (∀ m, (reconnectRun c ok fuel 1 1).2 = some (.connected m) →
        ok m = true ∧ ∀ j, 1 ≤ j → j < m → ok j = false ∧ c j = false)
    ∧ (∀ m, (reconnectRun c ok fuel 1 1).2 = some (.cancelled m) →
        c m = true ∧ ∀ j, 1 ≤ j → j < m → ok j = false ∧ c j = false)
    ∧ ((reconnectRun c ok fuel 1 1).2 = none →
        ∀ j, 1 ≤ j → j < 1 + fuel → ok j = false ∧ c j = false) := by
  have h := reconnectRun_props c ok fuel 1 (le_refl 1)
  rw [delaySeq_one] at h
  refine ⟨h.1, h.2.1,
    ⟨delaySeq_one, fun k hk => (delaySeq_succ k hk).symm, fun k => min_le_right _ _⟩,
    fun m hm => ⟨(h.2.2.1 m hm).1, (h.2.2.1 m hm).2.2⟩,
    h.2.2.2.1, h.2.2.2.2⟩

/-- Witness for C7: with no cancellation and the third dial succeeding, the
run connects at attempt three, the first two dials having failed. -/
theorem reconnect_backoff_witness :
    rcOkThird 3 = true
    ∧ attemptThenSleep (reconnectRun rcNoCancel rcOkThird 10 1 1).1 = true :=
  ⟨((reconnect_backoff rcNoCancel rcOkThird 10).2.2.2.1 3 (by decide)).1,
   (reconnect_backoff rcNoCancel rcOkThird 10).2.1⟩

/-! ## Claim C8: meeting interval construction -/

theorem startsOf_succ (all : List LogLine) (i : ℕ) :
    startsOf all (i + 1)
      = startsOf all i ++ (if (lineAt all i).isMeetingStart then [i] else []) := by
  unfold startsOf
  rw [List.range_succ, List.filter_append]
  congr 1
  by_cases h : (lineAt all i).isMeetingStart = true <;> simp [h]

theorem fmiLoop_succ (all : List LogLine) (i : ℕ) :
    fmiLoop all (i + 1) = fmiStep all (fmiLoop all i) i := by
  unfold fmiLoop
  rw [List.range_succ, List.foldl_append]
  rfl

theorem chainOK_append_one (ivs : List MeetingInterval) (iv : MeetingInterval)
    (h : chainOK ivs) (hlt : ∀ x ∈ ivs, x.endIndex < iv.startIndex) :
    chainOK (ivs ++ [iv]) := by
  unfold chainOK at h ⊢
  rw [List.chain'_append]
  refine ⟨h, List.chain'_singleton iv, ?_⟩
  intro x hx y hy
  simp only [List.head?_cons, Option.mem_def, Option.some.injEq] at hy
  subst hy
  apply hlt
  exact List.mem_of_mem_getLast? hx
theorem fmiInv_step (all : List LogLine) (i : ℕ) (hi : i < all.length)
    (sIdx : Option ℕ) (acc : List MeetingInterval)
    (h : fmiInv all i (sIdx, acc)) :
    fmiInv all (i + 1) (fmiStep all (sIdx, acc) i) := by
  obtain ⟨hchain, hok, hopen⟩ := h
  by_cases hstart : (lineAt all i).isMeetingStart = true
  · rcases sIdx with _ | s
    · have hstep : fmiStep all (none, acc) i = (some i, acc) := by
        simp [fmiStep, hstart]
      rw [hstep]
      have hmap : acc.map (fun iv => iv.startIndex) = startsOf all i := hopen
      refine ⟨hchain, fun iv hiv => ⟨(hok iv hiv).1, by have := (hok iv hiv).2; omega⟩, ?_⟩
      refine ⟨by omega, hstart, fun j h1 h2 => by omega,
              fun iv hiv => (hok iv hiv).2, ?_⟩
      rw [startsOf_succ, if_pos hstart, hmap]
    · obtain ⟨hsi, hsstart, hinterior, hbound, hmap⟩ := hopen
      have hstep : fmiStep all (some s, acc) i
          = (some i, acc ++ [(⟨s, i - 1, (lineAt all s).timestamp,
              (lineAt all (i - 1)).timestamp⟩ : MeetingInterval)]) := by
        simp [fmiStep, hstart]
      rw [hstep]
      have hnew : ivOK all (⟨s, i - 1, (lineAt all s).timestamp,
          (lineAt all (i - 1)).timestamp⟩ : MeetingInterval) := by
        unfold ivOK
        dsimp only
        refine ⟨by omega, by omega, hsstart, ?_, ?_, ?_⟩
        · intro j h1 h2
          exact (hinterior j h1 (by omega)).1
        · intro j h1 h2
          exact (hinterior j h1 (by omega)).2
        · right; left
          dsimp only
          rw [show i - 1 + 1 = i by omega]
          exact hstart
      refine ⟨chainOK_append_one acc _ hchain (fun x hx => by have := hbound x hx; dsimp only; omega),
              ?_, ?_⟩
      · intro iv hiv
        rcases List.mem_append.mp hiv with hiv | hiv
        · exact ⟨(hok iv hiv).1, by have := (hok iv hiv).2; omega⟩
        · rcases List.mem_singleton.mp hiv with rfl
          exact ⟨hnew, by dsimp only; omega⟩
      · refine ⟨by omega, hstart, fun j h1 h2 => by omega, ?_, ?_⟩
        · intro iv hiv
          rcases List.mem_append.mp hiv with hiv | hiv
          · have := hbound iv hiv
            omega
          · rcases List.mem_singleton.mp hiv with rfl
            dsimp only
            omega
        · rw [List.map_append, startsOf_succ, if_pos hstart, ← hmap]
          simp
  · have hstart0 : (lineAt all i).isMeetingStart = false := by
      cases hx : (lineAt all i).isMeetingStart
      · rfl
      · exact absurd hx hstart
    by_cases hend : (lineAt all i).isMeetingEnd = true
    · rcases sIdx with _ | s
      · have hstep : fmiStep all (none, acc) i = (none, acc) := by
          simp [fmiStep, hstart, hend]
        rw [hstep]
        have hmap : acc.map (fun iv => iv.startIndex) = startsOf all i := hopen
        refine ⟨hchain, fun iv hiv => ⟨(hok iv hiv).1, by have := (hok iv hiv).2; omega⟩, ?_⟩
        rw [startsOf_succ, if_neg hstart, hmap, List.append_nil]
      · obtain ⟨hsi, hsstart, hinterior, hbound, hmap⟩ := hopen
        have hstep : fmiStep all (some s, acc) i
            = (none, acc ++ [(⟨s, i, (lineAt all s).timestamp,
                (lineAt all i).timestamp⟩ : MeetingInterval)]) := by
          simp [fmiStep, hstart, hend]
        rw [hstep]
        have hnew : ivOK all (⟨s, i, (lineAt all s).timestamp,
            (lineAt all i).timestamp⟩ : MeetingInterval) := by
          unfold ivOK
          dsimp only
          refine ⟨by omega, hi, hsstart, ?_, ?_, Or.inl hend⟩
          · intro j h1 h2
            rcases Nat.lt_or_ge j i with hj | hj
            · exact (hinterior j h1 hj).1
            · rw [show j = i by omega]
              exact hstart0
          · intro j h1 h2
            exact (hinterior j h1 (by omega)).2
        refine ⟨chainOK_append_one acc _ hchain (fun x hx => by have := hbound x hx; dsimp only; omega),
                ?_, ?_⟩
        · intro iv hiv
          rcases List.mem_append.mp hiv with hiv | hiv
          · exact ⟨(hok iv hiv).1, by have := (hok iv hiv).2; omega⟩
          · rcases List.mem_singleton.mp hiv with rfl
            exact ⟨hnew, by dsimp only; omega⟩
        · rw [List.map_append, startsOf_succ, if_neg hstart, List.append_nil, ← hmap]
          simp
    · have hend0 : (lineAt all i).isMeetingEnd = false := by
        cases hx : (lineAt all i).isMeetingEnd
        · rfl
        · exact absurd hx hend
      have hstep : fmiStep all (sIdx, acc) i = (sIdx, acc) := by
        simp [fmiStep, hstart, hend]
      rw [hstep]
      refine ⟨hchain, fun iv hiv => ⟨(hok iv hiv).1, by have := (hok iv hiv).2; omega⟩, ?_⟩
      rcases sIdx with _ | s
      · have hmap : acc.map (fun iv => iv.startIndex) = startsOf all i := hopen
        rw [startsOf_succ, if_neg hstart, hmap, List.append_nil]
      · obtain ⟨hsi, hsstart, hinterior, hbound, hmap⟩ := hopen
        refine ⟨by omega, hsstart, ?_, hbound, ?_⟩
        · intro j h1 h2
          rcases Nat.lt_or_ge j i with hj | hj
          · exact hinterior j h1 hj
          · rw [show j = i by omega]
            exact ⟨hstart0, hend0⟩
        · rw [startsOf_succ, if_neg hstart, List.append_nil, hmap]

theorem fmiInv_all (all : List LogLine) :
    ∀ i, i ≤ all.length → fmiInv all i (fmiLoop all i) := by
  intro i
  induction i with
  | zero =>
    intro _
    have h0 : fmiLoop all 0 = (none, []) := rfl
    rw [h0]
    exact ⟨List.chain'_nil, by simp, rfl⟩
  | succ n ih =>
    intro hn
    rw [fmiLoop_succ]
    rcases hl : fmiLoop all n with ⟨sIdx, acc⟩
    have := ih (by omega)
    rw [hl] at this
    exact fmiInv_step all n (by omega) sIdx acc this

/-- C8: findMeetingIntervals returns intervals that are pairwise disjoint and
ordered, each starting at a meeting-start line and containing no other marker
strictly inside; the start indices are exactly the meeting-start line indices
in order, and each interval closes at a matched meeting-end line, at the index
just before the next meeting-start, or at the last line for a dangling
start. -/
theorem findMeetingIntervals_intervals (all : List LogLine) :
    chainOK (findMeetingIntervals all)
    ∧ (∀ iv ∈ findMeetingIntervals all, ivOK all iv)
    ∧ (findMeetingIntervals all).map (fun iv => iv.startIndex)
        = startsOf all all.length := by
  have hinv := fmiInv_all all all.length (le_refl _)
  rcases hr : fmiLoop all all.length with ⟨sIdx, acc⟩
  rw [hr] at hinv
  obtain ⟨hchain, hok, hopen⟩ := hinv
  rcases sIdx with _ | s
  · have hfmi : findMeetingIntervals all = acc := by
      unfold findMeetingIntervals
      unfold fmiLoop at hr
      rw [hr]
    rw [hfmi]
    exact ⟨hchain, fun iv hiv => (hok iv hiv).1, hopen⟩
  · obtain ⟨hsi, hsstart, hinterior, hbound, hmap⟩ := hopen
    have hfmi : findMeetingIntervals all
        = acc ++ [{ startIndex := s, endIndex := all.length - 1,
                    startTime := (lineAt all s).timestamp,
                    endTime := (lineAt all (all.length - 1)).timestamp }] := by
      unfold findMeetingIntervals
      unfold fmiLoop at hr
      rw [hr]
    have hnew : ivOK all { startIndex := s, endIndex := all.length - 1,
                           startTime := (lineAt all s).timestamp,
                           endTime := (lineAt all (all.length - 1)).timestamp } := by
      unfold ivOK
      dsimp only
      refine ⟨by omega, by omega, hsstart, ?_, ?_, Or.inr (Or.inr rfl)⟩
      · intro j h1 h2
        exact (hinterior j h1 (by omega)).1
      · intro j h1 h2
        exact (hinterior j h1 (by omega)).2
    rw [hfmi]
    refine ⟨chainOK_append_one acc _ hchain (fun x hx => by have := hbound x hx; dsimp only; omega),
            ?_, ?_⟩
    · intro iv hiv
      rcases List.mem_append.mp hiv with hiv | hiv
      · exact (hok iv hiv).1
      · rcases List.mem_singleton.mp hiv with rfl
        exact hnew
    · rw [List.map_append, ← hmap]
      simp

/-- Witness for C8 on a small concrete corpus with one matched meeting. -/
theorem findMeetingIntervals_intervals_witness :
    ivOK c8Demo { startIndex := 1, endIndex := 3, startTime := 2, endTime := 4 } :=
  (findMeetingIntervals_intervals c8Demo).2.1 _ (by decide)

/-! ## Claim C5: line structure of the write stream -/

theorem bool_eq_false_of_ne_true (b : Bool) (h : ¬ b = true) : b = false := by
  cases b
  · rfl
  · exact absurd rfl h

theorem linesOf_ne_nil (l : List Char) : linesOf l ≠ [] := by
  cases l with
  | nil => simp [linesOf]
  | cons c rest =>
    unfold linesOf
    cases h : linesOf rest with
    | nil => simp
    | cons a as => by_cases hc : c = '\n' <;> simp [hc]

theorem linesOf_cons_nl (x : List Char) : linesOf ('\n' :: x) = [] :: linesOf x := by
  rw [show linesOf ('\n' :: x)
      = (match linesOf x with
         | [] => [[]]
         | l :: ls => if ('\n' : Char) = '\n' then [] :: l :: ls
                      else (('\n' : Char) :: l) :: ls) from rfl]
  cases h : linesOf x with
  | nil => exact absurd h (linesOf_ne_nil x)
  | cons a as => simp

theorem linesOf_cons_ne (c : Char) (x : List Char) (hc : ¬ c = '\n')
    (a : List Char) (as : List (List Char)) (h : linesOf x = a :: as) :
    linesOf (c :: x) = (c :: a) :: as := by
  rw [show linesOf (c :: x)
      = (match linesOf x with
         | [] => [[]]
         | l :: ls => if c = '\n' then [] :: l :: ls else (c :: l) :: ls) from rfl]
  rw [h]
  simp [hc]

theorem linesOf_append_split (a : List Char) (ha : '\n' ∉ a) :
    ∀ (b lb : List Char) (lbs : List (List Char)), linesOf b = lb :: lbs →
    linesOf (a ++ b) = (a ++ lb) :: lbs := by
  induction a with
  | nil =>
    intro b lb lbs h
    simpa using h
  | cons c cs ih =>
    intro b lb lbs h
    have hc : ¬ c = '\n' := fun he => ha (he ▸ List.mem_cons_self c cs)
    have hcs : '\n' ∉ cs := fun hm => ha (List.mem_cons_of_mem c hm)
    have hrec := ih hcs b lb lbs h
    rw [List.cons_append]
    rw [linesOf_cons_ne c (cs ++ b) hc (cs ++ lb) lbs hrec]
    simp

theorem linesOf_no_nl (l : List Char) (h : '\n' ∉ l) : linesOf l = [l] := by
  have := linesOf_append_split l h [] [] [] rfl
  simpa using this

theorem linesOf_append_nl (a : List Char) (ha : '\n' ∉ a) (x : List Char) :
    linesOf (a ++ '\n' :: x) = a :: linesOf x := by
  have h2 : linesOf ('\n' :: x) = [] :: linesOf x := linesOf_cons_nl x
  have := linesOf_append_split a ha ('\n' :: x) [] (linesOf x) h2
  simpa using this

theorem linesOf_replicate_nl (k : ℕ) (x : List Char) :
    linesOf (List.replicate k '\n' ++ x) = List.replicate k [] ++ linesOf x := by
  induction k with
  | zero => simp
  | succ n ih =>
    rw [List.replicate_succ, List.cons_append, linesOf_cons_nl, ih,
        List.replicate_succ, List.cons_append]

theorem cleanLine_nil : cleanLine [] = true := by decide

theorem curGood_cleanLine (cur : List Char) (h : curGood cur = true) :
    cleanLine cur = true := by
  cases cur with
  | nil => decide
  | cons c cs =>
    unfold curGood at h
    rw [Bool.and_eq_true] at h
    obtain ⟨h1, h2⟩ := h
    unfold cleanLine
    rw [List.dropWhile_cons_of_neg]
    · exact h2
    · intro hx
      rw [hx] at h1
      exact absurd h1 (by decide)

theorem curGood_append_word (cur : List Char) (h : curGood cur = true)
    (hne : cur ≠ []) (y : List Char) : curGood (cur ++ ' ' :: y) = true := by
  cases cur with
  | nil => exact absurd rfl hne
  | cons c cs =>
    unfold curGood at h ⊢
    rw [Bool.and_eq_true] at h
    obtain ⟨h1, h2⟩ := h
    rw [List.cons_append, Bool.and_eq_true]
    refine ⟨h1, ?_⟩
    cases cs with
    | nil =>
      simp only [List.nil_append, List.isPrefixOf]
      rw [show (('%' : Char) == ' ') = false from by decide]
      simp
    | cons c1 cs1 =>
      simp only [List.isPrefixOf, List.cons_append, List.isPrefixOf_nil_left,
        Bool.and_true] at h2 ⊢
      exact h2

theorem wordOK_parts (w : String) (t : ℤ) (h : wordEventOK (.word w t) = true) :
    '\n' ∉ w.data ∧ (['%', '%'].isPrefixOf (trimSpace w).data) = false := by
  unfold wordEventOK at h
  rw [Bool.and_eq_true] at h
  obtain ⟨h1, h2⟩ := h
  refine ⟨of_decide_eq_true h1, ?_⟩
  rwa [Bool.not_eq_true'] at h2

theorem trim_no_nl (w : String) (h : '\n' ∉ w.data) : '\n' ∉ (trimSpace w).data :=
  fun hm => h (trimSpace_mem w '\n' hm)

theorem curGood_word (w : String) (hw : trimSpace w ≠ "")
    (hpp : (['%', '%'].isPrefixOf (trimSpace w).data) = false) :
    curGood (trimSpace w).data = true := by
  obtain ⟨c, cs, hcd, hcs⟩ := trimSpace_head w hw
  rw [hcd]
  unfold curGood
  rw [Bool.and_eq_true]
  constructor
  · rw [hcs]
    rfl
  · rw [← hcd, hpp]
    rfl

theorem string_length_data (s : String) : s.length = s.data.length := rfl

theorem processWord_out_cases (p : PP) (w : String) (now : ℤ) (hw : trimSpace w ≠ "") :
    (((processWord p w now).1.data = ' ' :: (trimSpace w).data ∧ p.currentLine.data ≠ [])
      ∨ ((processWord p w now).1.data = (trimSpace w).data ∧ p.currentLine.data = []))
     ∧ (processWord p w now).2.currentLine.data
       = p.currentLine.data ++ (processWord p w now).1.data
  ∨ (∃ k, (processWord p w now).1.data
        = List.replicate (k + 1) '\n' ++ (trimSpace w).data)
     ∧ (processWord p w now).2.currentLine = trimSpace w := by
  obtain ⟨hs1, hs2⟩ := processWord_shape p w now hw
  have hemp : (("" : String)).length = 0 := rfl
  by_cases hb1 : pauseBreak p now = true
  · right
    have hb3 : overflowBreak p (trimSpace w) now = false :=
      overflowBreak_false_of_break p (trimSpace w) now (Or.inl hb1)
    have hlf : lineFinal p (trimSpace w) now = "" :=
      lineFinal_empty_of_break p (trimSpace w) now (Or.inl hb1)
    rw [hlf] at hs1 hs2
    rw [hb1, hb3] at hs1
    simp only [hemp, Nat.lt_irrefl, if_false, if_true] at hs1 hs2
    by_cases hb2 : sentenceBreak p (trimSpace w) = true
    · rw [hb2] at hs1
      simp only [if_true] at hs1
      refine ⟨⟨1, ?_⟩, String.ext (by simpa using hs2)⟩
      simpa using hs1
    · rw [bool_eq_false_of_ne_true _ hb2] at hs1
      simp only [Bool.false_eq_true, if_false] at hs1
      refine ⟨⟨0, ?_⟩, String.ext (by simpa using hs2)⟩
      simpa using hs1
  · have hb1f := bool_eq_false_of_ne_true _ hb1
    by_cases hb2 : sentenceBreak p (trimSpace w) = true
    · right
      have hb3 : overflowBreak p (trimSpace w) now = false :=
        overflowBreak_false_of_break p (trimSpace w) now (Or.inr hb2)
      have hlf : lineFinal p (trimSpace w) now = "" :=
        lineFinal_empty_of_break p (trimSpace w) now (Or.inr (Or.inl hb2))
      rw [hlf] at hs1 hs2
      rw [hb1f, hb2, hb3] at hs1
      simp only [hemp, Nat.lt_irrefl, if_false, if_true, Bool.false_eq_true] at hs1 hs2
      refine ⟨⟨0, ?_⟩, String.ext (by simpa using hs2)⟩
      simpa using hs1
    · have hb2f := bool_eq_false_of_ne_true _ hb2
      by_cases hb3 : overflowBreak p (trimSpace w) now = true
      · right
        have hlf : lineFinal p (trimSpace w) now = "" :=
          lineFinal_empty_of_break p (trimSpace w) now (Or.inr (Or.inr hb3))
        rw [hlf] at hs1 hs2
        rw [hb1f, hb2f, hb3] at hs1
        simp only [hemp, Nat.lt_irrefl, if_false, if_true, Bool.false_eq_true] at hs1 hs2
        refine ⟨⟨0, ?_⟩, String.ext (by simpa using hs2)⟩
        simpa using hs1
      · left
        have hb3f := bool_eq_false_of_ne_true _ hb3
        have hlf : lineFinal p (trimSpace w) now = p.currentLine :=
          lineFinal_no_break p (trimSpace w) now hb1f hb2f hb3f
        rw [hlf] at hs1 hs2
        rw [hb1f, hb2f, hb3f] at hs1
        simp only [Bool.false_eq_true, if_false, List.replicate_zero,
          List.nil_append, Nat.add_zero] at hs1
        by_cases hcl : 0 < p.currentLine.length
        · have hne : p.currentLine.data ≠ [] := by
            rw [string_length_data] at hcl
            exact List.length_pos.mp hcl
          rw [if_pos hcl] at hs1 hs2
          refine ⟨Or.inl ⟨hs1, hne⟩, ?_⟩
          rw [hs2, hs1]
        · have hnil : p.currentLine.data = [] := by
            rw [string_length_data] at hcl
            exact List.length_eq_zero.mp (by omega)
          rw [if_neg hcl] at hs1 hs2
          refine ⟨Or.inr ⟨hs1, hnil⟩, ?_⟩
          rw [hs2, hs1]

theorem not_mem_append_char (a : Char) (x y : List Char) (hx : a ∉ x) (hy : a ∉ y) :
    a ∉ x ++ y := fun hm => (List.mem_append.mp hm).elim hx hy

theorem pp_isPrefixOf (lit : String) (x : List Char) (h : ['%', '%', ' '] <+: lit.data) :
    ['%', '%', ' '].isPrefixOf (lit.data ++ x) = true := by
  rw [List.isPrefixOf_iff_prefix]
  exact h.trans (List.prefix_append _ _)

theorem metaLinesOK_single (s : String) (a : List Char) (hs : s.data = a ++ ['\n'])
    (ha : '\n' ∉ a) (hpa : ['%', '%', ' '].isPrefixOf a = true) :
    metaLinesOK s = true := by
  unfold metaLinesOK
  rw [hs, show (a ++ ['\n']) = a ++ '\n' :: [] from rfl, linesOf_append_nl a ha,
      show linesOf ([] : List Char) = [[]] from rfl]
  simp [hpa]

theorem metaLinesOK_double (s : String) (a b : List Char)
    (hs : s.data = a ++ '\n' :: (b ++ ['\n'])) (ha : '\n' ∉ a) (hb : '\n' ∉ b)
    (hpa : ['%', '%', ' '].isPrefixOf a = true)
    (hpb : ['%', '%', ' '].isPrefixOf b = true) :
    metaLinesOK s = true := by
  unfold metaLinesOK
  rw [hs, linesOf_append_nl a ha, show (b ++ ['\n']) = b ++ '\n' :: [] from rfl,
      linesOf_append_nl b hb, show linesOf ([] : List Char) = [[]] from rfl]
  simp [hpa, hpb]

theorem runPPFrom_lines (evs : List PEvent) : ∀ p : PP,
    (∀ e ∈ evs, wordEventOK e = true) → curGood p.currentLine.data = true →
    ∃ l0 ls, linesOf (runPPFrom p evs).1.data = l0 :: ls
      ∧ cleanLine (p.currentLine.data ++ l0) = true
      ∧ ∀ l ∈ ls, cleanLine l = true := by
  induction evs with
  | nil =>
    intro p _ hcur
    refine ⟨[], [], rfl, ?_, ?_⟩
    · rw [List.append_nil]
      exact curGood_cleanLine _ hcur
    · intro l hl
      exact absurd hl (List.not_mem_nil l)
  | cons e rest ih =>
    intro p hok hcur
    have hokrest : ∀ x ∈ rest, wordEventOK x = true :=
      fun x hx => hok x (List.mem_cons_of_mem e hx)
    have hoke := hok e (List.mem_cons_self e rest)
    have hout : (runPPFrom p (e :: rest)).1
        = (ppEvent p e).1 ++ (runPPFrom (ppEvent p e).2 rest).1 := rfl
    cases e with
    | endTurn =>
      by_cases hhc : p.hasContent = true
      · have hpe : ppEvent p PEvent.endTurn
            = ("\n\n", { p with currentLine := "", lastWord := "" }) := by
          simp [ppEvent, processEndOfTurn, hhc]
        have hcg : curGood (ppEvent p PEvent.endTurn).2.currentLine.data = true := by
          rw [hpe]
          rfl
        obtain ⟨l0, ls, hsplit, hclean0, hcleans⟩ :=
          ih (ppEvent p PEvent.endTurn).2 hokrest hcg
        have h1 : (ppEvent p PEvent.endTurn).1 = "\n\n" := by rw [hpe]
        refine ⟨[], [] :: l0 :: ls, ?_, ?_, ?_⟩
        · rw [hout, String.data_append, h1,
              show ("\n\n" : String).data = '\n' :: '\n' :: [] from rfl,
              List.cons_append, List.cons_append, List.nil_append,
              linesOf_cons_nl, linesOf_cons_nl, hsplit]
        · rw [List.append_nil]
          exact curGood_cleanLine _ hcur
        · intro l hl
          rcases List.mem_cons.mp hl with rfl | hl
          · exact cleanLine_nil
          rcases List.mem_cons.mp hl with rfl | hl
          · have h2 : (ppEvent p PEvent.endTurn).2.currentLine.data = [] := by rw [hpe]
            rw [h2, List.nil_append] at hclean0
            exact hclean0
          · exact hcleans l hl
      · have hpe : ppEvent p PEvent.endTurn = ("", p) := by
          simp [ppEvent, processEndOfTurn, bool_eq_false_of_ne_true _ hhc]
        obtain ⟨l0, ls, hsplit, hclean0, hcleans⟩ :=
          ih (ppEvent p PEvent.endTurn).2 hokrest (by rw [hpe]; exact hcur)
        refine ⟨l0, ls, ?_, ?_, hcleans⟩
        · rw [hout, String.data_append, show (ppEvent p PEvent.endTurn).1 = "" from by rw [hpe],
              show ("" : String).data = ([] : List Char) from rfl, List.nil_append]
          exact hsplit
        · have h2 : (ppEvent p PEvent.endTurn).2 = p := by rw [hpe]
          rw [h2] at hclean0
          exact hclean0
    | word w t =>
      obtain ⟨hwnl, hwpp⟩ := wordOK_parts w t hoke
      by_cases hw : trimSpace w = ""
      · have hpe : ppEvent p (PEvent.word w t) = ("", p) := by
          simp [ppEvent, processWord, hw]
        obtain ⟨l0, ls, hsplit, hclean0, hcleans⟩ :=
          ih (ppEvent p (PEvent.word w t)).2 hokrest (by rw [hpe]; exact hcur)
        refine ⟨l0, ls, ?_, ?_, hcleans⟩
        · rw [hout, String.data_append,
              show (ppEvent p (PEvent.word w t)).1 = "" from by rw [hpe],
              show ("" : String).data = ([] : List Char) from rfl, List.nil_append]
          exact hsplit
        · have h2 : (ppEvent p (PEvent.word w t)).2 = p := by rw [hpe]
          rw [h2] at hclean0
          exact hclean0
      · have hwd : '\n' ∉ (trimSpace w).data := trim_no_nl w hwnl
        have hpeq : ppEvent p (PEvent.word w t) = processWord p w t := rfl
        rcases processWord_out_cases p w t hw with ⟨houts, hcur2⟩ | ⟨⟨k, hout1⟩, hcur2⟩
        · have hchunknl : '\n' ∉ (processWord p w t).1.data := by
            rcases houts with ⟨h, _⟩ | ⟨h, _⟩ <;> rw [h]
            · intro hm
              rcases List.mem_cons.mp hm with he | hm2
              · exact absurd he (by decide)
              · exact hwd hm2
            · exact hwd
          have hcg : curGood (processWord p w t).2.currentLine.data = true := by
            rcases houts with ⟨h, hne⟩ | ⟨h, hnil⟩
            · rw [hcur2, h]
              exact curGood_append_word _ hcur hne _
            · rw [hcur2, h, hnil, List.nil_append]
              exact curGood_word w hw hwpp
          obtain ⟨l0, ls, hsplit, hclean0, hcleans⟩ :=
            ih (processWord p w t).2 hokrest hcg
          refine ⟨(processWord p w t).1.data ++ l0, ls, ?_, ?_, hcleans⟩
          · rw [hout, hpeq, String.data_append]
            exact linesOf_append_split _ hchunknl _ _ _ hsplit
          · rw [← List.append_assoc, ← hcur2]
            exact hclean0
        · have hcg : curGood (processWord p w t).2.currentLine.data = true := by
            rw [hcur2]
            exact curGood_word w hw hwpp
          obtain ⟨l0, ls, hsplit, hclean0, hcleans⟩ :=
            ih (processWord p w t).2 hokrest hcg
          refine ⟨[], List.replicate k [] ++ (((trimSpace w).data ++ l0) :: ls), ?_, ?_, ?_⟩
          · rw [hout, hpeq, String.data_append, hout1, List.append_assoc,
                linesOf_replicate_nl (k + 1), linesOf_append_split _ hwd _ _ _ hsplit,
                List.replicate_succ, List.cons_append]
          · rw [List.append_nil]
            exact curGood_cleanLine _ hcur
          · intro l hl
            rcases List.mem_append.mp hl with hl | hl
            · rw [List.eq_of_mem_replicate hl]
              exact cleanLine_nil
            rcases List.mem_cons.mp hl with rfl | hl
            · have h2 : (processWord p w t).2.currentLine.data = (trimSpace w).data := by
                rw [hcur2]
              rw [h2] at hclean0
              exact hclean0
            · exact hcleans l hl

/-- C5 amended: every line of every formatted metadata string begins with two
percent signs and a space (the writeMetadata half of the claim); and every
line of the concatenated write output of the receive loop, when trimmed, does
not begin with two percent signs, provided each server-supplied word is free
of newlines and its trimmed text does not itself begin with two percent signs
(the unsanitized pass-through of such a word is the counterexample). -/
theorem metadata_and_write_lines :
    (∀ name line : String, '\n' ∉ name.data → '\n' ∉ line.data →
        metaLinesOK (pluginMetadata name line) = true)
    ∧ (∀ ts : String, '\n' ∉ ts.data → metaLinesOK (heartbeatMetadata ts) = true)
    ∧ (∀ ts : String, '\n' ∉ ts.data → metaLinesOK (zoomStartMetadata ts) = true)
    ∧ (∀ ts code title : String, '\n' ∉ ts.data → '\n' ∉ code.data → '\n' ∉ title.data →
        metaLinesOK (meetStartTitleMetadata ts code title) = true)
    ∧ (∀ ts platform : String, '\n' ∉ ts.data → '\n' ∉ platform.data →
        ∀ mins : ℕ, '\n' ∉ (toString mins).data →
        metaLinesOK (meetingEndedMetadata ts platform mins) = true)
    ∧ (∀ (pt : ℤ) (evs : List PEvent), (∀ e ∈ evs, wordEventOK e = true) →
        ∀ l ∈ linesOf (runPP pt evs).data, cleanLine l = true) := by
  refine ⟨?_, ?_, ?_, ?_, ?_, ?_⟩
  · intro name line hn hl
    apply metaLinesOK_single _
      ("%% ".data ++ (name.data ++ (": ".data ++ line.data)))
    · simp [pluginMetadata, String.data_append,
        show ("\n" : String).data = ['\n'] from rfl]
    · refine not_mem_append_char _ _ _ (by decide) ?_
      refine not_mem_append_char _ _ _ hn ?_
      exact not_mem_append_char _ _ _ (by decide) hl
    · exact pp_isPrefixOf "%% " _ (by decide)
  · intro ts ht
    apply metaLinesOK_single _ ("%% time: ".data ++ ts.data)
    · simp [heartbeatMetadata, String.data_append,
        show ("\n" : String).data = ['\n'] from rfl,
        show ("%% time: " : String).data = ("%% " : String).data ++ ("time: " : String).data
          from rfl]
    · exact not_mem_append_char _ _ _ (by decide) ht
    · exact pp_isPrefixOf "%% time: " _ (by decide)
  · intro ts ht
    apply metaLinesOK_single _
      ("%% meeting started: ".data ++ (ts.data ++ (" zoom" : String).data))
    · simp [zoomStartMetadata, String.data_append,
        show (" zoom\n" : String).data = (" zoom" : String).data ++ ['\n'] from rfl]
    · refine not_mem_append_char _ _ _ (by decide) ?_
      exact not_mem_append_char _ _ _ ht (by decide)
    · exact pp_isPrefixOf "%% meeting started: " _ (by decide)
  · intro ts code title ht hc hti
    apply metaLinesOK_double _
      ("%% meeting started: ".data ++ (ts.data ++ ((" meet/" : String).data ++ code.data)))
      ("%% meeting title: ".data ++ title.data)
    · simp [meetStartTitleMetadata, String.data_append,
        show ("\n%% meeting title: " : String).data
          = '\n' :: ("%% meeting title: " : String).data from rfl,
        show ("\n" : String).data = ['\n'] from rfl]
    · refine not_mem_append_char _ _ _ (by decide) ?_
      refine not_mem_append_char _ _ _ ht ?_
      exact not_mem_append_char _ _ _ (by decide) hc
    · exact not_mem_append_char _ _ _ (by decide) hti
    · exact pp_isPrefixOf "%% meeting started: " _ (by decide)
    · exact pp_isPrefixOf "%% meeting title: " _ (by decide)
  · intro ts platform ht hp mins hm
    apply metaLinesOK_single _
      ("%% meeting ended: ".data ++ (ts.data ++ ((" " : String).data ++ (platform.data ++
        ((" (duration: " : String).data ++ ((toString mins).data ++ ("m)" : String).data))))))
    · simp [meetingEndedMetadata, String.data_append,
        show ("m)\n" : String).data = ("m)" : String).data ++ ['\n'] from rfl]
    · refine not_mem_append_char _ _ _ (by decide) ?_
      refine not_mem_append_char _ _ _ ht ?_
      refine not_mem_append_char _ _ _ (by decide) ?_
      refine not_mem_append_char _ _ _ hp ?_
      refine not_mem_append_char _ _ _ (by decide) ?_
      exact not_mem_append_char _ _ _ hm (by decide)
    · exact pp_isPrefixOf "%% meeting ended: " _ (by decide)
  · intro pt evs hok l hl
    have hcg : curGood (initPP pt 80).currentLine.data = true := rfl
    obtain ⟨l0, ls, hsplit, hclean0, hcleans⟩ := runPPFrom_lines evs (initPP pt 80) hok hcg
    unfold runPP at hl
    rw [hsplit] at hl
    rcases List.mem_cons.mp hl with rfl | hl
    · have h0 : (initPP pt 80).currentLine.data = [] := rfl
      rw [h0, List.nil_append] at hclean0
      exact hclean0
    · exact hcleans l hl

/-- Witness for C5: a concrete plugin metadata line is well-formed and the
write output line of a harmless word is clean. -/
theorem metadata_and_write_lines_witness :
    metaLinesOK (pluginMetadata "git" "branch main") = true
    ∧ cleanLine "Hello".data = true := by
  constructor
  · exact metadata_and_write_lines.1 "git" "branch main" (by decide) (by decide)
  · exact metadata_and_write_lines.2.2.2.2.2 2000 [PEvent.word "Hello" 0]
      (by decide) "Hello".data (by decide)

end Localscribe
